import Mathlib

/-!
Verification development for a small optimizing compiler and interpreter
for an eight-instruction tape-machine language.

The Rust sources are embedded shallowly:
* bytes (`u8`) are `Nat` with explicit `% 256` wherever wrap-around matters;
* `isize` offsets are `Int`;
* `usize` pointers are `Nat` (with explicit `% 2 ^ 64` where the code relies
  on wrapping arithmetic);
* `Vec` is a list (pushed at the tail);
* `HashMap` / `HashSet` are association lists with unique keys in first
  insertion order (the Rust iteration order is unspecified; the association
  list order is the canonical choice used here);
* Rust panics (`unwrap` on `None`) are `Option`/dedicated error results.

The dead `AccessOutOfBounds` variant of the Rust `AST` enum is omitted: the
parser never produces it and no rewrite pass introduces it, while several
pass-side `match`es in the sources do not even list it.
-/

namespace Bf

/-! ## Byte arithmetic (u8 with wrap-around) -/

/-- Wrapping 8-bit addition, `u8::wrapping_add`. -/
def wAdd (a b : Nat) : Nat := (a + b) % 256

/-- Wrapping 8-bit multiplication, `u8::wrapping_mul`. -/
def wMul (a b : Nat) : Nat := (a * b) % 256

/-- The byte 255, i.e. `0u8.wrapping_sub(1)` / `u8::max_value()`. -/
def u8Max : Nat := 255

/-! ## The tree IR (`AST` in src/lib/optimized/mod.rs)

`AST` owns nested sequences, so it is formalized as a mutual pair
`AST`/`ASTList`; `ASTList` is isomorphic to `List AST` but keeps all
recursion structural (and hence kernel-computable). -/

inductive DatamodKind where
  | setData (amount : Nat)
  | addData (amount : Nat)
deriving DecidableEq, Repr

mutual

inductive AST where
  | loop (condDpOffset : Int) (elements : ASTList) (knownToBeNontrivial : Bool)
  | ifNonZero (condDpOffset : Int) (elements : ASTList)
  | infiniteLoop
  | shiftDataPtr (amount : Int)
  | modData (kind : DatamodKind) (dpOffset : Int)
  | combineData (sourceDpOffset targetDpOffset : Int) (sourceAmtMult : Nat)
  | readByte (dpOffset : Int)
  | writeByte (dpOffset : Int)
  | writeConst (out : Nat)
  | shiftLoop (condDpOffset : Int) (dpShift : Int) (knownToBeNontrivial : Bool)
  | assertEquals (dpOffset : Int) (val : Nat)
deriving DecidableEq, Repr

inductive ASTList where
  | nil
  | cons (head : AST) (tail : ASTList)
deriving DecidableEq, Repr

end

/-- Append of IR sequences (`Vec::append` / consecutive pushes). -/
def ASTList.append : ASTList → ASTList → ASTList
  | .nil, l => l
  | .cons a rest, l => .cons a (ASTList.append rest l)

/-- Push one node at the end of a sequence (`Vec::push`). -/
def ASTList.snoc (l : ASTList) (a : AST) : ASTList := l.append (.cons a .nil)

/-- Length of an IR sequence. -/
def ASTList.length : ASTList → Nat
  | .nil => 0
  | .cons _ rest => 1 + rest.length

mutual

/-- Combined size of an IR sequence, used as an induction measure. -/
def ASTList.size : ASTList → Nat
  | .nil => 0
  | .cons a rest => 1 + a.size + rest.size

/-- Combined size of an IR node, used as an induction measure. -/
def AST.size : AST → Nat
  | .loop _ els _ => 1 + els.size
  | .ifNonZero _ els => 1 + els.size
  | _ => 1

end

/-! ## Parsing (src/lib/optimized/mod.rs) -/

/-- Structured parse error (`ParseError`). -/
inductive ParseError where
  | endLoopWithoutStart (codeP : Nat)
  | unterminatedLoop (codeP : Nat)
deriving DecidableEq, Repr

/-- The eight command tokens (`BfCmd`). -/
inductive BfCmd where
  | incPtr
  | decPtr
  | incData
  | decData
  | readByte
  | writeByte
  | loopStart
  | loopEnd
deriving DecidableEq, Repr

/-- Lexer character table (`match_char`); all other characters are comments. -/
def matchChar (c : Char) : Option BfCmd :=
  if c = '>' then some .incPtr
  else if c = '<' then some .decPtr
  else if c = '+' then some .incData
  else if c = '-' then some .decData
  else if c = '.' then some .writeByte
  else if c = ',' then some .readByte
  else if c = '[' then some .loopStart
  else if c = ']' then some .loopEnd
  else none

/-- Enumerate characters from a starting code-point index (the `enumerate`
preceding the lexer's `filter_map`). -/
def enumFrom (n : Nat) : List Char → List (Nat × Char)
  | [] => []
  | c :: rest => (n, c) :: enumFrom (n + 1) rest

/-- Parser state (`ParseStack`): finished top-level nodes plus the stack of
open loops, innermost first (the Rust `Vec` keeps its top at the tail; the
list here keeps it at the head). -/
structure ParseStack where
  topTokens : ASTList
  runningLoops : List (Nat × ASTList)
deriving DecidableEq, Repr

/-- Route a finished node to the innermost open loop, or to the top level
(`ParseStack::push_command`). -/
def ParseStack.pushCommand (st : ParseStack) (ast : AST) : ParseStack :=
  match st.runningLoops with
  | [] => { st with topTokens := st.topTokens.snoc ast }
  | (cp, body) :: rest => { st with runningLoops := (cp, body.snoc ast) :: rest }

/-- Finish parsing (`ParseStack::complete`): any still-open loop is an
`UnterminatedLoop` error carrying the innermost open loop's code point. -/
def ParseStack.complete (st : ParseStack) : Except ParseError ASTList :=
  match st.runningLoops with
  | [] => .ok st.topTokens
  | (cp, _) :: _ => .error (.unterminatedLoop cp)

/-- Main parser loop over the lexed, enumerated character stream
(body of `parse` in src/lib/optimized/mod.rs). -/
def parseGo : List (Nat × Char) → ParseStack → Except ParseError ASTList
  | [], st => st.complete
  | (codeP, ch) :: rest, st =>
    match matchChar ch with
    | none => parseGo rest st
    | some .loopEnd =>
      match st.runningLoops with
      | [] => .error (.endLoopWithoutStart codeP)
      | (_, body) :: outer =>
        parseGo rest (ParseStack.pushCommand { st with runningLoops := outer }
          (.loop 0 body false))
    | some .loopStart => parseGo rest { st with runningLoops := (codeP, .nil) :: st.runningLoops }
    | some .readByte => parseGo rest (st.pushCommand (.readByte 0))
    | some .writeByte => parseGo rest (st.pushCommand (.writeByte 0))
    | some .decData => parseGo rest (st.pushCommand (.modData (.addData 255) 0))
    | some .incData => parseGo rest (st.pushCommand (.modData (.addData 1) 0))
    | some .decPtr => parseGo rest (st.pushCommand (.shiftDataPtr (-1)))
    | some .incPtr => parseGo rest (st.pushCommand (.shiftDataPtr 1))

/-- The optimizing front-end parser (`parse` in src/lib/optimized/mod.rs). -/
def parse (s : String) : Except ParseError ASTList :=
  parseGo (enumFrom 0 s.toList) ⟨.nil, []⟩

/-- Bracket balance check: scans the characters keeping the current loop
depth; `]` at depth zero fails, and the end must be at depth zero. -/
def bracketBal : List Char → Nat → Bool
  | [], d => d == 0
  | c :: rest, d =>
    if c = '[' then bracketBal rest (d + 1)
    else if c = ']' then
      match d with
      | 0 => false
      | d' + 1 => bracketBal rest d'
    else bracketBal rest d

/-- Whether an `Except` result is a success. -/
def exceptOk {ε α : Type} : Except ε α → Bool
  | .ok _ => true
  | .error _ => false

/-! ## The reference front-end (src/lib.rs, re-exported as `simple_parse`) -/

/-- Instructions of the unoptimized reference interpreter (`Instr`,
re-exported as `BfInstr`). -/
inductive Instr where
  | incPtr (codeP : Nat)
  | decPtr (codeP : Nat)
  | incByte (codeP : Nat)
  | decByte (codeP : Nat)
  | readByte (codeP : Nat)
  | writeByte (codeP : Nat)
  | loopStart (codeP : Nat) (endIp : Nat)
  | loopEnd (codeP : Nat) (startIp : Nat)
deriving DecidableEq, Repr

/-- Main loop of the reference parser (`parse` in src/lib.rs). `code` is the
emitted instruction vector, `loopStack` the open `[` instruction indices
(innermost first), `ip` the running instruction counter. The Rust function's
three `return Err(())` sites map to `Except.error ()`. -/
def simpleParseGo :
    List (Nat × Char) → List Instr → List Nat → Nat → Except Unit (List Instr)
  | [], code, loopStack, _ =>
    if loopStack.isEmpty then .ok code else .error ()
  | (codeP, ch) :: rest, code, loopStack, ip =>
    if ch = '>' then simpleParseGo rest (code ++ [.incPtr codeP]) loopStack (ip + 1)
    else if ch = '<' then simpleParseGo rest (code ++ [.decPtr codeP]) loopStack (ip + 1)
    else if ch = '+' then simpleParseGo rest (code ++ [.incByte codeP]) loopStack (ip + 1)
    else if ch = '-' then simpleParseGo rest (code ++ [.decByte codeP]) loopStack (ip + 1)
    else if ch = '.' then simpleParseGo rest (code ++ [.writeByte codeP]) loopStack (ip + 1)
    else if ch = ',' then simpleParseGo rest (code ++ [.readByte codeP]) loopStack (ip + 1)
    else if ch = '[' then
      simpleParseGo rest (code ++ [.loopStart codeP 0]) (ip :: loopStack) (ip + 1)
    else if ch = ']' then
      match loopStack with
      | [] => .error ()
      | startIp :: outer =>
        match code[startIp]? with
        | none => .error ()
        | some (.loopStart cp _) =>
          simpleParseGo rest
            ((code.set startIp (.loopStart cp ip)) ++ [.loopEnd codeP startIp]) outer (ip + 1)
        | some _ => .error ()
    else simpleParseGo rest code loopStack ip

/-- The reference parser (`parse` in src/lib.rs / `simple_parse`). -/
def simpleParse (s : String) : Except Unit (List Instr) :=
  simpleParseGo (enumFrom 0 s.toList) [] [] 0

/-! ## Flat bytecode and lowering (src/lib/optimized/mod.rs)

`CompiledInstr` is not recursive, so a plain `List` works. The Rust enum's
dead `AccessOutOfBounds` variant is omitted (nothing reachable produces it);
the `AssertEquals` variant handled by the optimized VM is included. -/

inductive CompiledInstr where
  | jumpIfZero (condDpOffset : Int) (targetIp : Nat)
  | jumpIfNonzero (condDpOffset : Int) (targetIp : Nat)
  | infiniteLoop
  | addPtr (amount : Nat)
  | subPtr (amount : Nat)
  | addData (amount : Nat) (dpOffset : Int)
  | setData (amount : Nat) (dpOffset : Int)
  | addTwoData (sourceDpOffset targetDpOffset : Int) (sourceAmtMult : Nat)
  | readByte (dpOffset : Int)
  | writeByte (dpOffset : Int)
  | writeConst (out : Nat)
  | assertEquals (dpOffset : Int) (val : Nat)
deriving DecidableEq, Repr

mutual

/-- Lower one IR node onto the end of the output vector
(one arm of the `for` loop in `compile_ast_helper`). A `Loop` pushes a
placeholder `JumpIfZero`, lowers its body, pushes the back-edge
`JumpIfNonzero`, then back-patches the placeholder; `IfNonZero` does the
same without a back-edge.

Modelled from the spec: the sources' copy of `compile_ast_helper` predates
the `ShiftLoop` and `AssertEquals` IR nodes used by the rewrite passes, so
their arms follow spec section 4.6: `ShiftLoop` becomes the three-op
microcode header-test / pointer-step / back-jump, and `AssertEquals` maps
one-to-one. -/
def compileOne (out : List CompiledInstr) (cmd : AST) : List CompiledInstr :=
  match cmd with
  | .loop c els _ =>
    let startIp := out.length
    let out2 := compileHelper (out ++ [.jumpIfZero c 0]) els
    let out3 := out2 ++ [.jumpIfNonzero c startIp]
    out3.set startIp (.jumpIfZero c out3.length)
  | .ifNonZero c els =>
    let startIp := out.length
    let out2 := compileHelper (out ++ [.jumpIfZero c 0]) els
    out2.set startIp (.jumpIfZero c out2.length)
  | .infiniteLoop => out ++ [.infiniteLoop]
  | .shiftDataPtr a =>
    if 0 < a then out ++ [.addPtr a.toNat]
    else if a < 0 then out ++ [.subPtr (-a).toNat]
    else out
  | .modData (.addData amount) d => out ++ [.addData amount d]
  | .modData (.setData amount) d => out ++ [.setData amount d]
  | .readByte d => out ++ [.readByte d]
  | .writeByte d => out ++ [.writeByte d]
  | .writeConst b => out ++ [.writeConst b]
  | .combineData s t m => out ++ [.addTwoData s t m]
  | .shiftLoop c k _ =>
    let startIp := out.length
    let step : CompiledInstr := if k < 0 then .subPtr (-k).toNat else .addPtr k.toNat
    out ++ [.jumpIfZero c (startIp + 3), step, .jumpIfNonzero c startIp]
  | .assertEquals d v => out ++ [.assertEquals d v]

/-- Lower an IR sequence onto the end of the output vector
(`compile_ast_helper`). -/
def compileHelper (out : List CompiledInstr) (cmds : ASTList) : List CompiledInstr :=
  match cmds with
  | .nil => out
  | .cons cmd rest => compileHelper (compileOne out cmd) rest

end

/-- Lowering entry point (`compile_ast`). -/
def compileAst (cmds : ASTList) : List CompiledInstr := compileHelper [] cmds

/-! ## Reorder pass (`sort_commands`, src/lib/optimized/optimization/mod.rs) -/

mutual

/-- Rewrite every explicit Δ field of a node when a `Shift(dpShift)` moves
past it (`shift_command`); loop and branch bodies are rewritten recursively,
`ShiftDataPtr`, `WriteConst` and `InfiniteLoop` are left untouched. -/
def shiftCommand (cmd : AST) (dpShift : Int) : AST :=
  match cmd with
  | .loop c els nt => .loop (c + dpShift) (shiftList els dpShift) nt
  | .shiftLoop c s nt => .shiftLoop (c + dpShift) s nt
  | .shiftDataPtr a => .shiftDataPtr a
  | .modData k d => .modData k (d + dpShift)
  | .combineData s t m => .combineData (s + dpShift) (t + dpShift) m
  | .readByte d => .readByte (d + dpShift)
  | .writeByte d => .writeByte (d + dpShift)
  | .ifNonZero c els => .ifNonZero (c + dpShift) (shiftList els dpShift)
  | .writeConst b => .writeConst b
  | .infiniteLoop => .infiniteLoop
  | .assertEquals d v => .assertEquals (d + dpShift) v

/-- Apply `shiftCommand` to every node of a sequence (the recursion of
`shift_command` into loop and branch bodies). -/
def shiftList (l : ASTList) (dpShift : Int) : ASTList :=
  match l with
  | .nil => .nil
  | .cons a rest => .cons (shiftCommand a dpShift) (shiftList rest dpShift)

end

/-- Whether a node is a `ShiftDataPtr` (the `matches!` test in the
`ShiftDataPtr` arm of `maybe_swap`). -/
def isShiftB : AST → Bool
  | .shiftDataPtr _ => true
  | _ => false

/-- One adjacent-pair step of the bubble pass (`maybe_swap`): returns the
resulting pair together with the swap count (0 or 1). A `ShiftDataPtr`
first element swaps past any non-`ShiftDataPtr` second element after
rewriting that element with `shiftCommand`. -/
def maybeSwap (first second : AST) : AST × AST × Nat :=
  match first with
  | .modData _ d =>
    match second with
    | .infiniteLoop => (second, first, 1)
    | .modData _ d2 => if d2 < d then (second, first, 1) else (first, second, 0)
    | .readByte io => if io ≠ d then (second, first, 1) else (first, second, 0)
    | .writeByte io => if io ≠ d then (second, first, 1) else (first, second, 0)
    | _ => (first, second, 0)
  | .combineData s t _ =>
    match second with
    | .infiniteLoop => (second, first, 1)
    | .combineData s2 t2 _ =>
      if s = s2 then if t2 < t then (second, first, 1) else (first, second, 0)
      else if t = t2 then if s2 < s then (second, first, 1) else (first, second, 0)
      else if s ≠ t2 ∧ t ≠ s2 then
        if s2 < s then (second, first, 1) else (first, second, 0)
      else (first, second, 0)
    | .modData _ d => if s ≠ d then (second, first, 1) else (first, second, 0)
    | .readByte io => if io ≠ s ∧ io ≠ t then (second, first, 1) else (first, second, 0)
    | .writeByte io => if io ≠ s ∧ io ≠ t then (second, first, 1) else (first, second, 0)
    | _ => (first, second, 0)
  | .shiftDataPtr k =>
    if isShiftB second then (first, second, 0)
    else (shiftCommand second k, first, 1)
  | _ => (first, second, 0)

/-- Sequential left-to-right sweep of `maybe_swap` over adjacent pairs
(the `for i in 0..cmds.len() - 1` loop of `sort_commands_step`), carrying
the element currently in the left slot. -/
def bubbleGo (prev : AST) : ASTList → ASTList × Nat
  | .nil => (.cons prev .nil, 0)
  | .cons b rest =>
    let (x, y, c) := maybeSwap prev b
    let (out, c2) := bubbleGo y rest
    (.cons x out, c + c2)

/-- One bubble iteration over a whole slice (`sort_commands_step`); slices
of length below two are left unchanged with zero swaps. -/
def sortCommandsStep : ASTList → ASTList × Nat
  | .nil => (.nil, 0)
  | .cons a rest => bubbleGo a rest

/-- Take a prefix of an IR sequence (the `&mut cmds[0..slice_len]` slice). -/
def ASTList.take : Nat → ASTList → ASTList
  | 0, _ => .nil
  | _, .nil => .nil
  | n + 1, .cons a r => .cons a (ASTList.take n r)

/-- Drop a prefix of an IR sequence. -/
def ASTList.drop : Nat → ASTList → ASTList
  | 0, l => l
  | _, .nil => .nil
  | n + 1, .cons _ r => ASTList.drop n r

/-- The shrinking-slice driver of `sort_commands`: bubble the prefix of the
given length, stop as soon as an iteration makes no swap, otherwise shrink
the slice by one and continue, accumulating the swap total. -/
def sortLoop : ASTList → Nat → Nat → ASTList × Nat
  | cmds, 0, total => (cmds, total)
  | cmds, 1, total => (cmds, total)
  | cmds, n + 2, total =>
    let (pre, localSwaps) := sortCommandsStep (cmds.take (n + 2))
    let cmds2 := pre.append (cmds.drop (n + 2))
    if localSwaps = 0 then (cmds2, total)
    else sortLoop cmds2 (n + 1) (total + localSwaps)

mutual

/-- Recursion of `sort_commands` into `Loop` and `IfNonZero` bodies; the
inner swap counts are discarded, exactly as the Rust call sites discard the
recursive `sort_commands(elements)` return value. -/
def sortInnerOne : AST → AST
  | .loop c els nt =>
    let e := sortInner els
    .loop c (sortLoop e e.length 0).1 nt
  | .ifNonZero c els =>
    let e := sortInner els
    .ifNonZero c (sortLoop e e.length 0).1
  | cmd => cmd

/-- Apply `sortInnerOne` to every node of a sequence (the recursion loop at
the top of `sort_commands`). -/
def sortInner : ASTList → ASTList
  | .nil => .nil
  | .cons cmd rest => .cons (sortInnerOne cmd) (sortInner rest)

end

/-- The reorder pass (`sort_commands`): recurse into loop and branch bodies,
then run shrinking bubble iterations on the top-level sequence, returning
the top-level swap count. -/
def sortCommands (cmds : ASTList) : ASTList × Nat :=
  let e := sortInner cmds
  sortLoop e e.length 0

/-! ## Collapse pass (`collapse_consecutive`) -/

/-- Result of applying two data modifications in order, "a, then b"
(`collapse_kinds`; also the inline merge table in `collapse_consecutive`). -/
def collapseKinds (a b : DatamodKind) : DatamodKind :=
  match b with
  | .setData amount => .setData amount
  | .addData bAmt =>
    match a with
    | .setData amount => .setData (wAdd amount bAmt)
    | .addData amount => .addData (wAdd amount bAmt)

/-- Outcome of confronting the accumulator with the next command in
`collapse_consecutive`: merge into a new accumulator (counting the given
number of collapses), drop both, or keep both. -/
inductive CollapseRes where
  | merged (acc : AST) (n : Nat)
  | dropBoth (n : Nat)
  | keepBoth
deriving DecidableEq, Repr

/-- The accumulator-versus-next-command match of `collapse_consecutive`.
Note two quirks kept from the source: merging two `CombineData` nodes does
not increment the collapse counter, and back-to-back loops with the same
condition offset drop the second loop. -/
def collapsePair (acc cmd : AST) : CollapseRes :=
  match acc with
  | .modData kind d =>
    match cmd with
    | .modData kind2 d2 =>
      if d = d2 then .merged (.modData (collapseKinds kind kind2) d) 1 else .keepBoth
    | .readByte rd => if rd = d then .merged (.readByte rd) 1 else .keepBoth
    | .infiniteLoop => .merged .infiniteLoop 1
    | _ => .keepBoth
  | .shiftDataPtr a =>
    match cmd with
    | .shiftDataPtr b =>
      if a + b = 0 then .dropBoth 2 else .merged (.shiftDataPtr (a + b)) 1
    | .infiniteLoop => .merged .infiniteLoop 1
    | _ => .keepBoth
  | .combineData s t m =>
    match cmd with
    | .combineData s2 t2 m2 =>
      if s = s2 ∧ t = t2 then .merged (.combineData s t (wAdd m m2)) 0 else .keepBoth
    | .infiniteLoop => .merged .infiniteLoop 1
    | _ => .keepBoth
  | .infiniteLoop => .merged .infiniteLoop 1
  | .loop c _ _ =>
    match cmd with
    | .loop c2 _ _ => if c2 = c then .merged acc 1 else .keepBoth
    | .shiftLoop c2 _ _ => if c2 = c then .merged acc 1 else .keepBoth
    | _ => .keepBoth
  | .shiftLoop c _ _ =>
    match cmd with
    | .loop c2 _ _ => if c2 = c then .merged acc 1 else .keepBoth
    | .shiftLoop c2 _ _ => if c2 = c then .merged acc 1 else .keepBoth
    | _ => .keepBoth
  | _ => .keepBoth

mutual

/-- The accumulator fold of `collapse_consecutive`, with a node currently
held in the accumulator. -/
def collapseFold (acc : AST) : ASTList → ASTList × Nat
  | .nil => (.cons acc .nil, 0)
  | .cons cmd rest =>
    match collapsePair acc cmd with
    | .merged newAcc n =>
      let (out, m) := collapseFold newAcc rest
      (out, n + m)
    | .dropBoth n =>
      let (out, m) := collapseFoldStart rest
      (out, n + m)
    | .keepBoth =>
      let (out, m) := collapseFold cmd rest
      (.cons acc out, m)

/-- The accumulator fold of `collapse_consecutive` with an empty
accumulator (`accumulator == None`). -/
def collapseFoldStart : ASTList → ASTList × Nat
  | .nil => (.nil, 0)
  | .cons cmd rest => collapseFold cmd rest

end

mutual

/-- Recursion of `collapse_consecutive` into `Loop` bodies only; branch
(`IfNonZero`) bodies are not recursed into. -/
def collapseInnerOne : AST → AST × Nat
  | .loop c els nt =>
    let (e1, n1) := collapseInner els
    let (e2, n2) := collapseFoldStart e1
    (.loop c e2 nt, n1 + n2)
  | cmd => (cmd, 0)

/-- Apply `collapseInnerOne` to every node of a sequence. -/
def collapseInner : ASTList → ASTList × Nat
  | .nil => (.nil, 0)
  | .cons cmd rest =>
    let (a, n) := collapseInnerOne cmd
    let (r, m) := collapseInner rest
    (.cons a r, n + m)

end

/-- The collapse pass (`collapse_consecutive`): recurse into `Loop` bodies,
then fold the top-level sequence merging adjacent compatible nodes. -/
def collapseConsecutive (cmds : ASTList) : ASTList × Nat :=
  match cmds with
  | .nil => (.nil, 0)
  | _ =>
    let (c1, n1) := collapseInner cmds
    let (c2, n2) := collapseFoldStart c1
    (c2, n1 + n2)

/-! ## Association-list maps

Stand-ins for the Rust `HashMap`/`HashSet` with unique keys; iteration order
is first-insertion order (the Rust hash iteration order is unspecified). -/

/-- Lookup in an association list (`HashMap::get`). -/
def alLookup {α : Type} (k : Int) : List (Int × α) → Option α
  | [] => none
  | (k2, v) :: rest => if k2 = k then some v else alLookup k rest

/-- Remove a key from an association list (`HashMap::remove`, value
discarded). -/
def alErase {α : Type} (k : Int) : List (Int × α) → List (Int × α)
  | [] => []
  | (k2, v) :: rest => if k2 = k then alErase k rest else (k2, v) :: alErase k rest

/-- Insert or overwrite a key (`HashMap::insert`); an existing key keeps its
position, a fresh key is appended. -/
def alSet {α : Type} (k : Int) (v : α) : List (Int × α) → List (Int × α)
  | [] => [(k, v)]
  | (k2, w) :: rest => if k2 = k then (k, v) :: rest else (k2, w) :: alSet k v rest

/-! ## Loop-shape recognizer (`const_loop_remove`) -/

/-- Reasons a loop body is not a pure constant-effect body
(`NonConstResult`), ordered as in the Rust `derive(Ord)`. -/
inductive NonConstResult where
  | complexArithmetic
  | shifts
  | innerCond
  | innerLoops
  | io
  | infiniteLoop
deriving DecidableEq, Repr

/-- Declaration-order rank of `NonConstResult` (the derived `Ord`). -/
def NonConstResult.rank : NonConstResult → Nat
  | .complexArithmetic => 0
  | .shifts => 1
  | .innerCond => 2
  | .innerLoops => 3
  | .io => 4
  | .infiniteLoop => 5

/-- The `update_err` closure of `only_data`: keep the larger error. -/
def updErr (running : Option NonConstResult) (e : NonConstResult) : Option NonConstResult :=
  match running with
  | none => some e
  | some old => some (if old.rank < e.rank then e else old)

/-- The per-offset net effect map built by `only_data`. -/
abbrev OffsetMap := List (Int × DatamodKind)

/-- One `ModData` update of the effect map: fold the new kind onto the
existing entry (defaulting to `Add(0)`) with `collapse_kinds`, removing the
entry when the result is the no-op `Add(0)`. -/
def odUpdate (m : OffsetMap) (d : Int) (kind : DatamodKind) : OffsetMap :=
  let v := collapseKinds ((alLookup d m).getD (.addData 0)) kind
  if v = .addData 0 then alErase d m else alSet d v m

/-- The scan of `only_data` over a loop body, accumulating the effect map
and the worst non-const reason. -/
def onlyDataGo : ASTList → OffsetMap → Option NonConstResult →
    Except NonConstResult OffsetMap
  | .nil, offsets, none => .ok offsets
  | .nil, _, some e => .error e
  | .cons cmd rest, offsets, err =>
    match cmd with
    | .modData kind d => onlyDataGo rest (odUpdate offsets d kind) err
    | .combineData _ _ _ => onlyDataGo rest offsets (updErr err .complexArithmetic)
    | .loop _ _ _ => onlyDataGo rest offsets (updErr err .innerLoops)
    | .shiftLoop _ _ _ => onlyDataGo rest offsets (updErr err .innerLoops)
    | .ifNonZero _ _ => onlyDataGo rest offsets (updErr err .innerCond)
    | .shiftDataPtr _ => onlyDataGo rest offsets (updErr err .shifts)
    | .readByte _ => onlyDataGo rest offsets (updErr err .io)
    | .writeByte _ => onlyDataGo rest offsets (updErr err .io)
    | .writeConst _ => onlyDataGo rest offsets (updErr err .io)
    | .infiniteLoop => onlyDataGo rest offsets (updErr err .infiniteLoop)
    | .assertEquals _ _ => onlyDataGo rest offsets err

/-- Classify a loop body as a pure per-offset effect map, or report why not
(`only_data`). -/
def onlyData (cmds : ASTList) : Except NonConstResult OffsetMap :=
  onlyDataGo cmds [] none

/-- Pop a key together with its value (`offsets.remove(&cond)`), `none` when
absent. -/
def omRemove (d : Int) (m : OffsetMap) : Option (DatamodKind × OffsetMap) :=
  match alLookup d m with
  | none => none
  | some v => some (v, alErase d m)

/-- Replacement nodes for a counted loop (the `loop_adds` construction in
the `Add(±1)` branch): each `Add(m)` offset becomes a `CombineData` scaled
by the repetition multiplier, each `Set` is emitted as-is. -/
def constLoopAdds (cond : Int) (repsMult : Nat) : OffsetMap → ASTList
  | [] => .nil
  | (tdo, .addData base) :: rest =>
    .cons (.combineData cond tdo (wMul repsMult base)) (constLoopAdds cond repsMult rest)
  | (tdo, .setData amt) :: rest =>
    .cons (.modData (.setData amt) tdo) (constLoopAdds cond repsMult rest)

/-- Replacement nodes for a run-once loop (the `loop_adds` construction in
the `Set(0)` branch). -/
def constLoopSetAdds : OffsetMap → ASTList
  | [] => .nil
  | (tdo, kind) :: rest => .cons (.modData kind tdo) (constLoopSetAdds rest)

/-- Processing of one `Loop` node by the main sweep of `const_loop_remove`
(its body already recursed into): the nodes to emit in its place and the
removal count, or `none` for the source's `offsets.remove(&cond).unwrap()`
panic (reached whenever the condition offset is absent from an effect map
that does not have exactly one entry, e.g. for an empty loop body). -/
def clrLoop (cond : Int) (els : ASTList) (nt : Bool) : Option (ASTList × Nat) :=
  match onlyData els with
  | .ok offsets =>
    let pre : ASTList :=
      if (alLookup cond offsets).isSome then .nil
      else if nt then .cons .infiniteLoop .nil
      else .cons (.ifNonZero cond (.cons .infiniteLoop .nil)) .nil
    if offsets.length = 1 then
      some (pre.append (.cons (.modData (.setData 0) cond) .nil), 1)
    else
      match omRemove cond offsets with
      | none => none
      | some (.addData amount, offsets2) =>
        if amount ≠ 1 ∧ amount ≠ u8Max then
          some (pre.append (.cons (.loop cond els nt) .nil), 0)
        else
          let repsMult := if amount = u8Max then 1 else u8Max
          let adds := (constLoopAdds cond repsMult offsets2).snoc (.modData (.setData 0) cond)
          if nt then some (pre.append adds, 1)
          else some (pre.append (.cons (.ifNonZero cond adds) .nil), 1)
      | some (.setData amount, offsets2) =>
        let adds :=
          if amount ≠ 0 then ASTList.cons .infiniteLoop .nil
          else (constLoopSetAdds offsets2).snoc (.modData (.setData 0) cond)
        if nt then some (pre.append adds, 0)
        else some (pre.append (.cons (.ifNonZero cond adds) .nil), 0)
  | .error _ =>
    match els with
    | .nil => some (.cons (.ifNonZero cond (.cons .infiniteLoop .nil)) .nil, 1)
    | .cons (.shiftDataPtr a) .nil => some (.cons (.shiftLoop cond a nt) .nil, 1)
    | .cons _ .nil => some (.nil, 0)
    | _ => some (.cons (.loop cond els nt) .nil, 0)

/-- The main sweep of `const_loop_remove` over a sequence whose nested loops
have already been processed. -/
def clrMain : ASTList → Option (ASTList × Nat)
  | .nil => some (.nil, 0)
  | .cons (.loop c els nt) rest =>
    match clrLoop c els nt, clrMain rest with
    | some (add, n), some (rest2, m) => some (add.append rest2, n + m)
    | _, _ => none
  | .cons cmd rest =>
    match clrMain rest with
    | some (rest2, m) => some (.cons cmd rest2, m)
    | none => none

mutual

/-- The pre-recursion of `const_loop_remove` into one node: a `Loop` body
gets the full pass applied (recursion, then main sweep). -/
def clrPreOne : AST → Option (AST × Nat)
  | .loop c els nt =>
    match clrPre els with
    | none => none
    | some (e1, n1) =>
      match clrMain e1 with
      | none => none
      | some (e2, n2) => some (.loop c e2 nt, n1 + n2)
  | cmd => some (cmd, 0)

/-- The pre-recursion loop of `const_loop_remove` over a sequence. -/
def clrPre : ASTList → Option (ASTList × Nat)
  | .nil => some (.nil, 0)
  | .cons cmd rest =>
    match clrPreOne cmd, clrPre rest with
    | some (a, n), some (r, m) => some (.cons a r, n + m)
    | _, _ => none

end

/-- The loop-shape recognizer pass (`const_loop_remove`); `none` is the
source's `unwrap` panic. -/
def constLoopRemove (cmds : ASTList) : Option (ASTList × Nat) :=
  match clrPre cmds with
  | none => none
  | some (c1, n1) =>
    match clrMain c1 with
    | none => none
    | some (c2, n2) => some (c2, n1 + n2)

/-! ## Abstract simulator state (`sim_state` module) -/

/-- Per-cell abstract value (`DataState`). -/
inductive DataState where
  | unknown
  | unknownNonzero
  | known (v : Nat)
deriving DecidableEq, Repr

/-- Abstract machine state of the simulator (`SimState`): known cells keyed
by absolute (dp-adjusted) index, the default for unlisted cells, the
relative data pointer, and the wipe counter. -/
structure SimState where
  data : List (Int × DataState)
  defValue : DataState
  dp : Int
  wipes : Nat
deriving DecidableEq, Repr

/-- Fresh state (`SimState::new`). -/
def SimState.new (defValue : DataState) : SimState := ⟨[], defValue, 0, 0⟩

/-- Read a cell relative to dp (`SimState::get_data`). -/
def SimState.getData (s : SimState) (ind : Int) : DataState :=
  (alLookup (s.dp + ind) s.data).getD s.defValue

/-- Write a cell relative to dp (`SimState::set_data`). -/
def SimState.setData (s : SimState) (ind : Int) (v : DataState) : SimState :=
  { s with data := alSet (s.dp + ind) v s.data }

/-- Move the abstract dp (`SimState::shift_ptr`). -/
def SimState.shiftPtr (s : SimState) (k : Int) : SimState :=
  { s with dp := s.dp + k }

/-- Forget everything (`SimState::clear_knowledge`): drop all cells, reset
dp, default to `Unknown`, bump the wipe counter. -/
def SimState.clearKnowledge (s : SimState) : SimState :=
  ⟨[], .unknown, 0, s.wipes + 1⟩

/-- Fork the state for a branch (`SimState::make_branch`); the marker is the
wipe counter at the fork. -/
def SimState.makeBranch (s : SimState) : SimState × Nat := (s, s.wipes)

/-- Intersect with a branch's post-state (`SimState::merge_divergent`): if
either side wiped since the fork, or the defaults or dps disagree, all
knowledge is cleared; otherwise only cells with identical facts survive. -/
def SimState.mergeDivergent (s : SimState) (branch : SimState) (marker : Nat) : SimState :=
  if s.wipes ≠ marker ∨ branch.wipes ≠ marker then s.clearKnowledge
  else if s.defValue ≠ branch.defValue then s.clearKnowledge
  else if s.dp ≠ branch.dp then s.clearKnowledge
  else { s with data := s.data.filter (fun kv => alLookup kv.1 branch.data == some kv.2) }

/-- Update the state by a `ModData` effect (`SimState::process_mod_data`). -/
def SimState.processModData (s : SimState) (kind : DatamodKind) (d : Int) : SimState :=
  match kind with
  | .setData amount => s.setData d (.known amount)
  | .addData 0 => s
  | .addData amount =>
    match s.getData d with
    | .unknown => s.setData d .unknown
    | .unknownNonzero => s.setData d .unknown
    | .known old => s.setData d (.known (wAdd old amount))

/-- Update the state by a `CombineData` effect
(`SimState::process_combine_data`). -/
def SimState.processCombineData (s : SimState) (src tgt : Int) (mult : Nat) : SimState :=
  if mult = 0 then s
  else
    match s.getData src, s.getData tgt with
    | .known 0, _ => s
    | .known a, .known b => s.setData tgt (.known (wAdd b (wMul a mult)))
    | _, _ => s.setData tgt .unknown

/-! ## Data-usage tracker (`data_usage` module and `track_usage`) -/

/-- Summary of what a subtree may touch (`DataUsage`). -/
inductive DataUsage where
  | dpLost
  | dataTracked (dpShift : Int) (dataMods : List Int)
deriving DecidableEq, Repr

/-- `DataUsageTracker::shift`. -/
def duShift (u : DataUsage) (amt : Int) : DataUsage :=
  match u with
  | .dpLost => .dpLost
  | .dataTracked s mods => .dataTracked (s + amt) (mods.map (· + amt))

/-- `DataUsageTracker::data_used`; the modified-offsets set keeps first
insertion order. -/
def duUse (u : DataUsage) (d : Int) : DataUsage :=
  match u with
  | .dpLost => .dpLost
  | .dataTracked s mods => .dataTracked s (if mods.contains d then mods else mods ++ [d])

/-- Record several modified offsets in order. -/
def duUseAll (u : DataUsage) : List Int → DataUsage
  | [] => u
  | d :: rest => duUseAll (duUse u d) rest

mutual

/-- One step of `track_usage_step`. For a loop or branch the condition cell
counts as used; the body is tracked separately, and a nonzero net body
shift (or a lost inner dp) loses the dp, while the body's modified offsets
are merged in (`data_used` is a no-op once dp is lost). -/
def trackUsageOne (cmd : AST) (u : DataUsage) : DataUsage :=
  match cmd with
  | .loop c els _ =>
    let u1 := duUse u c
    (match trackUsageList els (.dataTracked 0 []) with
     | .dpLost => .dpLost
     | .dataTracked s mods => duUseAll (if s ≠ 0 then .dpLost else u1) mods)
  | .ifNonZero c els =>
    let u1 := duUse u c
    (match trackUsageList els (.dataTracked 0 []) with
     | .dpLost => .dpLost
     | .dataTracked s mods => duUseAll (if s ≠ 0 then .dpLost else u1) mods)
  | .shiftLoop _ _ _ => .dpLost
  | .shiftDataPtr a => duShift u a
  | .modData _ d => duUse u d
  | .combineData _ t _ => duUse u t
  | .readByte d => duUse u d
  | .writeByte d => duUse u d
  | .infiniteLoop => u
  | .writeConst _ => u
  | .assertEquals d _ => duUse u d

/-- Track a whole sequence (the body loop of `track_usage_step`). -/
def trackUsageList (cmds : ASTList) (u : DataUsage) : DataUsage :=
  match cmds with
  | .nil => u
  | .cons cmd rest => trackUsageList rest (trackUsageOne cmd u)

end

/-- Usage summary of a single node (`track_usage`). -/
def trackUsage (cmd : AST) : DataUsage := trackUsageOne cmd (.dataTracked 0 [])

/-- Mark every offset of a list as `Unknown` in the state (the
`for m in data_mods { state.set_data(m, Unknown) }` loops). -/
def setAllUnknown (s : SimState) : List Int → SimState
  | [] => s
  | d :: rest => setAllUnknown (s.setData d .unknown) rest

/-! ## Abstract-simulation pass (`run_simulation`)

The body of `run_simulation_ctx` processes the sequence node by node and
never recurses into loop or branch bodies. -/

/-- Process one node in `run_simulation_ctx`: the nodes pushed in its place,
the removed/simplified count, and the updated state. -/
def runSimOne (cmd : AST) (state : SimState) : ASTList × Nat × SimState :=
  match cmd with
  | .ifNonZero c els =>
    (match state.getData c with
     | .unknown =>
       let usage := trackUsage (.ifNonZero c els)
       let st :=
         match usage with
         | .dataTracked 0 mods => setAllUnknown state mods
         | .dataTracked _ _ => state.clearKnowledge
         | .dpLost => state.clearKnowledge
       (.cons (.ifNonZero c els) .nil, 0, st)
     | .known 0 => (.nil, 1, state)
     | .known _ => (els, 1, state.clearKnowledge)
     | .unknownNonzero => (els, 1, state.clearKnowledge))
  | .shiftDataPtr a => (.cons cmd .nil, 0, state.shiftPtr a)
  | .shiftLoop _ _ _ =>
    (.cons cmd .nil, 0, (state.clearKnowledge).setData 0 (.known 0))
  | .loop c els nt =>
    (match state.getData c with
     | .known 0 => (.nil, 1, state.setData c (.known 0))
     | .unknown =>
       let usage := trackUsage (.loop c els nt)
       let st :=
         match usage with
         | .dataTracked 0 mods => setAllUnknown state mods
         | _ => state.clearKnowledge
       (.cons (.loop c els nt) .nil, 0, st.setData c (.known 0))
     | _ =>
       let n := if nt then 0 else 1
       let usage := trackUsage (.loop c els true)
       let st :=
         match usage with
         | .dataTracked 0 mods => setAllUnknown state mods
         | _ => state.clearKnowledge
       (.cons (.loop c els true) .nil, n, st.setData c (.known 0)))
  | .readByte d => (.cons cmd .nil, 0, state.setData d .unknown)
  | .writeByte d =>
    (match state.getData d with
     | .known v => (.cons (.writeConst v) .nil, 1, state)
     | _ => (.cons (.writeByte d) .nil, 0, state))
  | .writeConst _ => (.cons cmd .nil, 0, state)
  | .combineData s t m =>
    (match state.getData s with
     | .known old =>
       (.cons (.modData (.addData (wMul m old)) t) .nil, 1,
         state.processCombineData s t m)
     | _ =>
       let st := state.processCombineData s t m
       (match st.getData t with
        | .known amount => (.cons (.modData (.setData amount) t) .nil, 1, st)
        | _ => (.cons cmd .nil, 0, st)))
  | .modData kind d =>
    let startData := state.getData d
    let st := state.processModData kind d
    (match st.getData d with
     | .known amount =>
       if startData = .known amount then (.nil, 1, st)
       else
         (match kind with
          | .setData _ => (.cons (.modData (.setData amount) d) .nil, 0, st)
          | .addData _ => (.cons (.modData (.setData amount) d) .nil, 1, st))
     | _ => (.cons cmd .nil, 0, st))
  | .infiniteLoop => (.cons cmd .nil, 0, state.clearKnowledge)
  | .assertEquals d v => (.cons (.assertEquals d v) .nil, 0, state.clearKnowledge)

/-- The sequential sweep of `run_simulation_ctx`. -/
def runSimGo : ASTList → SimState → ASTList × Nat × SimState
  | .nil, state => (.nil, 0, state)
  | .cons cmd rest, state =>
    let (em, n, st1) := runSimOne cmd state
    let (out, m, st2) := runSimGo rest st1
    (em.append out, n + m, st2)

/-- The abstract-simulation pass (`run_simulation`), starting from all cells
`Known(0)`. -/
def runSimulation (cmds : ASTList) : ASTList × Nat :=
  let (out, n, _) := runSimGo cmds (SimState.new (.known 0))
  (out, n)

/-! ## One-step-loop pass (`one_step_loops`) -/

mutual

/-- The sequential sweep of `one_step_loops_ctx`. -/
def oslList (cmds : ASTList) (state : SimState) : ASTList × Nat × SimState :=
  match cmds with
  | .nil => (.nil, 0, state)
  | .cons cmd rest =>
    let (em, n, st1) := oslOne cmd state
    let (out, m, st2) := oslList rest st1
    (em.append out, n + m, st2)

/-- Process one node in `one_step_loops_ctx`. A `Loop` body is simulated in
a fresh state that assumes the condition cell `UnknownNonzero`; if one
iteration provably zeroes the condition cell, the loop is unrolled into its
(recursively processed) body plus an `AssertEquals`, wrapped in `IfNonZero`
unless the loop is known nontrivial. -/
def oslOne (cmd : AST) (state : SimState) : ASTList × Nat × SimState :=
  match cmd with
  | .loop c els nt =>
    let inner0 := (SimState.new .unknown).setData c .unknownNonzero
    let (els2, innerRem, innerSt) := oslList els inner0
    let stOut := (state.clearKnowledge).setData c (.known 0)
    if innerSt.getData c = .known 0 then
      let newEls := els2.snoc (.assertEquals c 0)
      if nt then (newEls, innerRem + 1, stOut)
      else (.cons (.ifNonZero c newEls) .nil, innerRem + 1, stOut)
    else (.cons (.loop c els2 nt) .nil, innerRem, stOut)
  | .ifNonZero c els =>
    (match state.getData c with
     | .known 0 => (.nil, 1 + els.length, state)
     | .known _ =>
       let (els2, innerRem, st2) := oslList els state
       (els2, 1 + innerRem, st2)
     | .unknownNonzero =>
       let (els2, innerRem, st2) := oslList els state
       (els2, 1 + innerRem, st2)
     | .unknown =>
       let (branch0, marker) := state.makeBranch
       let branch1 := branch0.setData c .unknownNonzero
       let (els2, innerRem, branch2) := oslList els branch1
       (.cons (.ifNonZero c els2) .nil, innerRem, state.mergeDivergent branch2 marker))
  | .shiftLoop c _ _ =>
    (.cons cmd .nil, 0, (state.clearKnowledge).setData c (.known 0))
  | .infiniteLoop => (.cons cmd .nil, 0, state)
  | .shiftDataPtr a => (.cons cmd .nil, 0, state.shiftPtr a)
  | .modData kind d => (.cons cmd .nil, 0, state.processModData kind d)
  | .combineData s t m => (.cons cmd .nil, 0, state.processCombineData s t m)
  | .readByte d => (.cons cmd .nil, 0, state.setData d .unknown)
  | .writeByte _ => (.cons cmd .nil, 0, state)
  | .writeConst _ => (.cons cmd .nil, 0, state)
  | .assertEquals d v => (.cons cmd .nil, 0, state.setData d (.known v))

end

/-- The one-step-loop pass (`one_step_loops`), starting from all cells
`Known(0)`. -/
def oneStepLoops (cmds : ASTList) : ASTList × Nat :=
  let (out, n, _) := oslList cmds (SimState.new (.known 0))
  (out, n)

/-! ## The optimizer driver (`optimize` / `opt_step`) -/

/-- One full round of the pass pipeline (`opt_step`): reorder, collapse,
const-loop removal, simulation, one-step loops; returns the rewritten IR
and the total reported change count, or `none` if `const_loop_remove`
panicked. -/
def optStep (cmds : ASTList) : Option (ASTList × Nat) :=
  let (c1, swaps) := sortCommands cmds
  let (c2, coll) := collapseConsecutive c1
  match constLoopRemove c2 with
  | none => none
  | some (c3, deloop) =>
    let (c4, simRemoved) := runSimulation c3
    let (c5, osl) := oneStepLoops c4
    some (c5, swaps + coll + deloop + simRemoved + osl)

/-- Result of running the optimizer fixed-point loop under a fuel bound. -/
inductive OptResult where
  | panicked
  | fuelOut
  | done (cmds : ASTList)
deriving DecidableEq, Repr

/-- The fixed-point loop of `optimize`, bounded by fuel: run `opt_step`
rounds until one reports zero changes. The Rust loop is unbounded; fuel
only limits how many rounds this embedding will unfold. -/
def optimizeFuel : Nat → ASTList → OptResult
  | 0, _ => .fuelOut
  | n + 1, cmds =>
    match optStep cmds with
    | none => .panicked
    | some (c2, 0) => .done c2
    | some (c2, _ + 1) => optimizeFuel n c2

/-- Result of the full optimizing pipeline. -/
inductive FullParseResult where
  | parseFailed (e : ParseError)
  | panicked
  | fuelOut
  | success (code : List CompiledInstr)
deriving DecidableEq, Repr

/-- The full optimizing pipeline (`full_parse`): parse, optimize to a fixed
point (under the given fuel), then lower to flat bytecode. -/
def fullParseFuel (fuel : Nat) (s : String) : FullParseResult :=
  match parse s with
  | .error e => .parseFailed e
  | .ok cmds =>
    match optimizeFuel fuel cmds with
    | .panicked => .panicked
    | .fuelOut => .fuelOut
    | .done c2 => .success (compileAst c2)

/-! ## The interpreters (src/interpreter)

Both VMs own a 30,000-byte tape and a data pointer. The input collaborator
is the differential-test `FixedInput`: a fixed byte list; reading past its
end yields 0 without advancing, so `inputPos` counts consumed bytes. Tape
indexing out of bounds is a Rust panic, modelled as `crashed`; `usize`
pointer arithmetic wraps at `2 ^ 64` (release-profile semantics). -/

/-- Read one byte from the fixed input (`FixedInput::read_byte`): the byte
at the cursor and the advanced cursor, or 0 leaving the cursor in place at
end of input. -/
def readInput (input : List Nat) (pos : Nat) : Nat × Nat :=
  match input[pos]? with
  | some b => (b, pos + 1)
  | none => (0, pos)

/-- One dispatch-step outcome of a VM. -/
inductive VmStep (σ : Type) where
  | halt
  | crashed
  | next (s : σ)

/-- State of the reference interpreter (`SimpleVM`). -/
structure SimpleSt where
  ip : Nat
  dp : Nat
  data : Nat → Nat
  inputPos : Nat
  output : List Nat

/-- One iteration of the `SimpleVM::run` dispatch loop. -/
def simpleStep (prog : List Instr) (input : List Nat) (s : SimpleSt) : VmStep SimpleSt :=
  match prog[s.ip]? with
  | none => .halt
  | some instr =>
    match instr with
    | .loopEnd _ startIp =>
      if s.dp < 30000 then
        .next (if s.data s.dp ≠ 0 then { s with ip := startIp } else { s with ip := s.ip + 1 })
      else .crashed
    | .loopStart _ endIp =>
      if s.dp < 30000 then
        .next (if s.data s.dp = 0 then { s with ip := endIp + 1 } else { s with ip := s.ip + 1 })
      else .crashed
    | .incByte _ =>
      if s.dp < 30000 then
        .next { s with
          data := fun i => if i = s.dp then wAdd (s.data s.dp) 1 else s.data i
          ip := s.ip + 1 }
      else .crashed
    | .decByte _ =>
      if s.dp < 30000 then
        .next { s with
          data := fun i => if i = s.dp then wAdd (s.data s.dp) 255 else s.data i
          ip := s.ip + 1 }
      else .crashed
    | .incPtr _ => .next { s with dp := (s.dp + 1) % 2 ^ 64, ip := s.ip + 1 }
    | .decPtr _ => .next { s with dp := (s.dp + (2 ^ 64 - 1)) % 2 ^ 64, ip := s.ip + 1 }
    | .readByte _ =>
      if s.dp < 30000 then
        let (b, pos2) := readInput input s.inputPos
        .next { s with
          data := fun i => if i = s.dp then b % 256 else s.data i
          inputPos := pos2
          ip := s.ip + 1 }
      else .crashed
    | .writeByte _ =>
      if s.dp < 30000 then
        .next { s with output := s.output ++ [s.data s.dp], ip := s.ip + 1 }
      else .crashed

/-- Run the reference interpreter for at most the given number of dispatch
steps; stops early at halt or crash. -/
def simpleRun (prog : List Instr) (input : List Nat) : Nat → SimpleSt → SimpleSt
  | 0, s => s
  | n + 1, s =>
    match simpleStep prog input s with
    | .next s2 => simpleRun prog input n s2
    | _ => s

/-- Initial VM state: zero tape, dp and ip 0, nothing read or written. -/
def simpleInit : SimpleSt := ⟨0, 0, fun _ => 0, 0, []⟩

/-- State of the optimized interpreter (`OptVM`). -/
structure OptSt where
  ip : Nat
  dp : Nat
  data : Nat → Nat
  inputPos : Nat
  output : List Nat

/-- Effective tape index `(self.dp as isize + dp_offset) as usize`. -/
def dpIdx (dp : Nat) (off : Int) : Nat := (((dp : Int) + off).emod (2 ^ 64)).toNat

/-- One iteration of the `OptVM::run` dispatch loop. Reaching
`InfiniteLoop` prints a diagnostic and breaks out of the loop, so it is a
(successful) halt, not a crash. -/
def optVmStep (prog : List CompiledInstr) (input : List Nat) (s : OptSt) : VmStep OptSt :=
  match prog[s.ip]? with
  | none => .halt
  | some instr =>
    match instr with
    | .jumpIfNonzero c target =>
      let idx := dpIdx s.dp c
      if idx < 30000 then
        .next (if s.data idx ≠ 0 then { s with ip := target } else { s with ip := s.ip + 1 })
      else .crashed
    | .jumpIfZero c target =>
      let idx := dpIdx s.dp c
      if idx < 30000 then
        .next (if s.data idx = 0 then { s with ip := target } else { s with ip := s.ip + 1 })
      else .crashed
    | .addData amount d =>
      let idx := dpIdx s.dp d
      if idx < 30000 then
        .next { s with
          data := fun i => if i = idx then wAdd (s.data idx) amount else s.data i
          ip := s.ip + 1 }
      else .crashed
    | .setData amount d =>
      let idx := dpIdx s.dp d
      if idx < 30000 then
        .next { s with
          data := fun i => if i = idx then amount % 256 else s.data i
          ip := s.ip + 1 }
      else .crashed
    | .addTwoData src tgt mult =>
      let sIdx := dpIdx s.dp src
      let tIdx := dpIdx s.dp tgt
      if sIdx < 30000 ∧ tIdx < 30000 then
        let addend := wMul (s.data sIdx) mult
        .next { s with
          data := fun i => if i = tIdx then wAdd (s.data tIdx) addend else s.data i
          ip := s.ip + 1 }
      else .crashed
    | .addPtr amount => .next { s with dp := (s.dp + amount) % 2 ^ 64, ip := s.ip + 1 }
    | .subPtr amount =>
      .next { s with dp := (s.dp + (2 ^ 64 - amount % 2 ^ 64)) % 2 ^ 64, ip := s.ip + 1 }
    | .readByte d =>
      let idx := dpIdx s.dp d
      if idx < 30000 then
        let (b, pos2) := readInput input s.inputPos
        .next { s with
          data := fun i => if i = idx then b % 256 else s.data i
          inputPos := pos2
          ip := s.ip + 1 }
      else .crashed
    | .writeByte d =>
      let idx := dpIdx s.dp d
      if idx < 30000 then
        .next { s with output := s.output ++ [s.data idx], ip := s.ip + 1 }
      else .crashed
    | .writeConst b => .next { s with output := s.output ++ [b], ip := s.ip + 1 }
    | .infiniteLoop => .halt
    | .assertEquals d _ =>
      let idx := dpIdx s.dp d
      if idx < 30000 then .next { s with ip := s.ip + 1 } else .crashed

/-- Run the optimized interpreter for at most the given number of dispatch
steps; stops early at halt or crash. -/
def optVmRun (prog : List CompiledInstr) (input : List Nat) : Nat → OptSt → OptSt
  | 0, s => s
  | n + 1, s =>
    match optVmStep prog input s with
    | .next s2 => optVmRun prog input n s2
    | _ => s

/-- Initial optimized-VM state. -/
def optInit : OptSt := ⟨0, 0, fun _ => 0, 0, []⟩

/-! ## Denotational semantics of the tree IR

A fuel-bounded big-step interpreter for IR sequences over an unbounded
tape, used to state and prove semantic-preservation facts about rewrites.
Fuel is consumed once per loop re-entry; `InfiniteLoop` (and fuel
exhaustion) yield `none`. -/

/-- Machine state for IR execution: data pointer, unbounded byte tape,
remaining input, produced output. -/
structure ExecState where
  dp : Int
  tape : Int → Nat
  input : List Nat
  output : List Nat

/-- Read one byte at the IR level: the head of the remaining input, or 0 at
end of input. -/
def execRead : List Nat → Nat × List Nat
  | [] => (0, [])
  | b :: rest => (b, rest)

/-- Fuel-bounded big-step execution of an IR sequence. -/
def execList (fuel : Nat) (l : ASTList) (s : ExecState) : Option ExecState :=
  match l with
  | .nil => some s
  | .cons cmd rest =>
    match cmd with
    | .shiftDataPtr k => execList fuel rest { s with dp := s.dp + k }
    | .modData (.addData a) d =>
      execList fuel rest { s with
        tape := fun i => if i = s.dp + d then wAdd (s.tape (s.dp + d)) a else s.tape i }
    | .modData (.setData a) d =>
      execList fuel rest { s with
        tape := fun i => if i = s.dp + d then a % 256 else s.tape i }
    | .combineData src tgt m =>
      execList fuel rest { s with
        tape := fun i =>
          if i = s.dp + tgt then wAdd (s.tape (s.dp + tgt)) (wMul (s.tape (s.dp + src)) m)
          else s.tape i }
    | .readByte d =>
      let (b, rest2) := execRead s.input
      execList fuel rest { s with
        tape := fun i => if i = s.dp + d then b % 256 else s.tape i
        input := rest2 }
    | .writeByte d => execList fuel rest { s with output := s.output ++ [s.tape (s.dp + d)] }
    | .writeConst b => execList fuel rest { s with output := s.output ++ [b] }
    | .assertEquals _ _ => execList fuel rest s
    | .infiniteLoop => none
    | .ifNonZero c els =>
      if s.tape (s.dp + c) = 0 then execList fuel rest s
      else
        match execList fuel els s with
        | none => none
        | some s2 => execList fuel rest s2
    | .loop c els nt =>
      if s.tape (s.dp + c) = 0 then execList fuel rest s
      else
        match fuel with
        | 0 => none
        | f + 1 =>
          match execList (f + 1) els s with
          | none => none
          | some s2 => execList f (.cons (.loop c els nt) rest) s2
    | .shiftLoop c k nt =>
      if s.tape (s.dp + c) = 0 then execList fuel rest s
      else
        match fuel with
        | 0 => none
        | f + 1 => execList f (.cons (.shiftLoop c k nt) rest) { s with dp := s.dp + k }
termination_by (fuel, ASTList.size l)
decreasing_by
  all_goals simp_wf
  all_goals simp [ASTList.size, AST.size]
  all_goals omega

/-! ## Derived checkers and auxiliary definitions used by the theorems -/

mutual

/-- Base-indexed compositional description of lowering: the instructions a
single node contributes when lowering starts at absolute index `base`. -/
def lowerOne (base : Nat) (cmd : AST) : List CompiledInstr :=
  match cmd with
  | .loop c els _ =>
    let body := lowerList (base + 1) els
    .jumpIfZero c (base + 1 + body.length + 1) :: (body ++ [.jumpIfNonzero c base])
  | .ifNonZero c els =>
    let body := lowerList (base + 1) els
    .jumpIfZero c (base + 1 + body.length) :: body
  | .shiftLoop c k _ =>
    [.jumpIfZero c (base + 3), if k < 0 then .subPtr (-k).toNat else .addPtr k.toNat,
      .jumpIfNonzero c base]
  | .shiftDataPtr a =>
    if 0 < a then [.addPtr a.toNat] else if a < 0 then [.subPtr (-a).toNat] else []
  | .modData (.addData amount) d => [.addData amount d]
  | .modData (.setData amount) d => [.setData amount d]
  | .readByte d => [.readByte d]
  | .writeByte d => [.writeByte d]
  | .writeConst b => [.writeConst b]
  | .combineData s t m => [.addTwoData s t m]
  | .infiniteLoop => [.infiniteLoop]
  | .assertEquals d v => [.assertEquals d v]

/-- Base-indexed compositional description of lowering a sequence. -/
def lowerList (base : Nat) (cmds : ASTList) : List CompiledInstr :=
  match cmds with
  | .nil => []
  | .cons cmd rest =>
    let o := lowerOne base cmd
    o ++ lowerList (base + o.length) rest
end

/-- Whether one instruction's jump target (if any) is within `[0, len]`. -/
def jumpTargetOkAt (len : Nat) : CompiledInstr → Bool
  | .jumpIfZero _ t => t ≤ len
  | .jumpIfNonzero _ t => t ≤ len
  | _ => true

/-- Whether every jump target of a program is within `[0, program_len]`. -/
def jumpTargetsOk (prog : List CompiledInstr) : Bool :=
  prog.all (jumpTargetOkAt prog.length)

mutual

/-- Whether a node (recursively) contains no `Mod(Add(0), _)`. -/
def noAdd0One : AST → Bool
  | .modData (.addData a) _ => a != 0
  | .loop _ els _ => noAdd0 els
  | .ifNonZero _ els => noAdd0 els
  | _ => true

/-- Whether a sequence (recursively) contains no `Mod(Add(0), _)`. -/
def noAdd0 : ASTList → Bool
  | .nil => true
  | .cons a rest => noAdd0One a && noAdd0 rest

end

/-- The reference parse of the program `"+++[--]."`. -/
def c1Prog : List Instr :=
  [.incByte 0, .incByte 1, .incByte 2, .loopStart 3 6, .decByte 4, .decByte 5,
    .loopEnd 6 3, .writeByte 7]

/-- Inductive invariant for running `c1Prog` on the reference interpreter:
the machine stays inside instructions 0-6 with dp 0, the current cell keeps
the parity dictated by the instruction pointer, and no I/O ever happens, so
the run never terminates and never produces output. -/
def c1Inv (s : SimpleSt) : Prop :=
  s.dp = 0 ∧ s.inputPos = 0 ∧ s.output = [] ∧ s.data 0 < 256 ∧
    ((s.ip = 0 ∧ s.data 0 = 0) ∨ (s.ip = 1 ∧ s.data 0 = 1) ∨ (s.ip = 2 ∧ s.data 0 = 2) ∨
      (s.ip = 3 ∧ s.data 0 % 2 = 1) ∨ (s.ip = 4 ∧ s.data 0 % 2 = 1) ∨
      (s.ip = 5 ∧ s.data 0 % 2 = 0) ∨ (s.ip = 6 ∧ s.data 0 % 2 = 1))

/-- Stack invariant of the reference parser: every stacked index denotes an
already-emitted `LoopStart` whose `end_ip` is still the placeholder 0. -/
def SpStackOk (code : List Instr) (stack : List Nat) : Prop :=
  ∀ s ∈ stack, s < code.length ∧ ∃ cp, code[s]? = some (Instr.loopStart cp 0)

/-- Completed-pairs invariant: every `LoopStart` not on the stack points to
an in-bounds `LoopEnd` that points back at it. -/
def SpStartsOk (code : List Instr) (stack : List Nat) : Prop :=
  ∀ i cp e, code[i]? = some (Instr.loopStart cp e) → i ∉ stack →
    i < e ∧ e < code.length ∧ ∃ cp2, code[e]? = some (Instr.loopEnd cp2 i)

/-- Every emitted `LoopEnd` points back at an earlier `LoopStart` that
points at it. -/
def SpEndsOk (code : List Instr) : Prop :=
  ∀ j cp st, code[j]? = some (Instr.loopEnd cp st) →
    st < j ∧ ∃ cp2, code[st]? = some (Instr.loopStart cp2 j)

/-! ## Parser lemmas (towards C3) -/

theorem pushCommand_fst (st : ParseStack) (a : AST) :
    (st.pushCommand a).runningLoops.map Prod.fst = st.runningLoops.map Prod.fst := by
  cases h : st.runningLoops with
  | nil => simp [ParseStack.pushCommand, h]
  | cons hd tl => cases hd; simp [ParseStack.pushCommand, h]

theorem pushCommand_length (st : ParseStack) (a : AST) :
    (st.pushCommand a).runningLoops.length = st.runningLoops.length := by
  cases h : st.runningLoops with
  | nil => simp [ParseStack.pushCommand, h]
  | cons hd tl => cases hd; simp [ParseStack.pushCommand, h]

theorem parseGo_ok_iff : ∀ (l : List (Nat × Char)) (st : ParseStack),
    exceptOk (parseGo l st) = bracketBal (l.map Prod.snd) st.runningLoops.length := by
  intro l
  induction l with
  | nil =>
    intro st
    obtain ⟨top, rl⟩ := st
    cases rl <;> simp [parseGo, ParseStack.complete, bracketBal, exceptOk]
  | cons pc rest ih =>
    intro st
    obtain ⟨p, c⟩ := pc
    by_cases h1 : c = '>'
    · subst h1
      simpa [parseGo, matchChar, bracketBal, pushCommand_length] using
        ih (st.pushCommand (.shiftDataPtr 1))
    by_cases h2 : c = '<'
    · subst h2
      simpa [parseGo, matchChar, bracketBal, pushCommand_length] using
        ih (st.pushCommand (.shiftDataPtr (-1)))
    by_cases h3 : c = '+'
    · subst h3
      simpa [parseGo, matchChar, bracketBal, pushCommand_length] using
        ih (st.pushCommand (.modData (.addData 1) 0))
    by_cases h4 : c = '-'
    · subst h4
      simpa [parseGo, matchChar, bracketBal, pushCommand_length] using
        ih (st.pushCommand (.modData (.addData 255) 0))
    by_cases h5 : c = '.'
    · subst h5
      simpa [parseGo, matchChar, bracketBal, pushCommand_length] using
        ih (st.pushCommand (.writeByte 0))
    by_cases h6 : c = ','
    · subst h6
      simpa [parseGo, matchChar, bracketBal, pushCommand_length] using
        ih (st.pushCommand (.readByte 0))
    by_cases h7 : c = '['
    · subst h7
      simpa [parseGo, matchChar, bracketBal] using
        ih { st with runningLoops := (p, .nil) :: st.runningLoops }
    by_cases h8 : c = ']'
    · subst h8
      cases hrl : st.runningLoops with
      | nil => simp [parseGo, matchChar, bracketBal, hrl, exceptOk]
      | cons hd tl =>
        obtain ⟨cp0, body⟩ := hd
        have := ih (ParseStack.pushCommand { st with runningLoops := tl } (.loop 0 body false))
        simpa [parseGo, matchChar, bracketBal, hrl, pushCommand_length] using this
    · simp [parseGo, matchChar, h1, h2, h3, h4, h5, h6, h7, h8, bracketBal, ih _]

theorem enumFrom_snd : ∀ (L : List Char) (n : Nat), (enumFrom n L).map Prod.snd = L := by
  intro L
  induction L with
  | nil => intro n; simp [enumFrom]
  | cons c rest ih => intro n; simp [enumFrom, ih]

theorem enumFrom_mem : ∀ (L : List Char) (n : Nat) (pc : Nat × Char),
    pc ∈ enumFrom n L → n ≤ pc.1 ∧ L.get? (pc.1 - n) = some pc.2 := by
  intro L
  induction L with
  | nil => intro n pc h; simp [enumFrom] at h
  | cons c rest ih =>
    intro n pc h
    simp only [enumFrom, List.mem_cons] at h
    rcases h with h | h
    · subst h; simp
    · obtain ⟨h1, h2⟩ := ih (n + 1) pc h
      refine ⟨by omega, ?_⟩
      have : pc.1 - n = (pc.1 - (n + 1)) + 1 := by omega
      rw [this]
      simpa using h2

theorem parseGo_err (L : List Char) :
    ∀ (l : List (Nat × Char)) (st : ParseStack),
      (∀ pc ∈ l, L.get? pc.1 = some pc.2) →
      (∀ cp ∈ st.runningLoops.map Prod.fst, L.get? cp = some '[') →
      ∀ p, (parseGo l st = .error (.endLoopWithoutStart p) → L.get? p = some ']') ∧
        (parseGo l st = .error (.unterminatedLoop p) → L.get? p = some '[') := by
  intro l
  induction l with
  | nil =>
    intro st hl hst p
    obtain ⟨top, rl⟩ := st
    cases rl with
    | nil => simp [parseGo, ParseStack.complete]
    | cons hd tl =>
      obtain ⟨cp0, body⟩ := hd
      refine ⟨by simp [parseGo, ParseStack.complete], ?_⟩
      intro h
      simp [parseGo, ParseStack.complete] at h
      subst h
      exact hst cp0 (by simp)
  | cons pc rest ih =>
    intro st hl hst p
    obtain ⟨q, c⟩ := pc
    have hq : L.get? q = some c := hl (q, c) (by simp)
    have hrest : ∀ pc ∈ rest, L.get? pc.1 = some pc.2 := fun x hx => hl x (by simp [hx])
    by_cases h1 : c = '>'
    · subst h1
      have := ih (st.pushCommand (.shiftDataPtr 1)) hrest
        (by rw [pushCommand_fst]; exact hst) p
      simpa [parseGo, matchChar] using this
    by_cases h2 : c = '<'
    · subst h2
      have := ih (st.pushCommand (.shiftDataPtr (-1))) hrest
        (by rw [pushCommand_fst]; exact hst) p
      simpa [parseGo, matchChar] using this
    by_cases h3 : c = '+'
    · subst h3
      have := ih (st.pushCommand (.modData (.addData 1) 0)) hrest
        (by rw [pushCommand_fst]; exact hst) p
      simpa [parseGo, matchChar] using this
    by_cases h4 : c = '-'
    · subst h4
      have := ih (st.pushCommand (.modData (.addData 255) 0)) hrest
        (by rw [pushCommand_fst]; exact hst) p
      simpa [parseGo, matchChar] using this
    by_cases h5 : c = '.'
    · subst h5
      have := ih (st.pushCommand (.writeByte 0)) hrest
        (by rw [pushCommand_fst]; exact hst) p
      simpa [parseGo, matchChar] using this
    by_cases h6 : c = ','
    · subst h6
      have := ih (st.pushCommand (.readByte 0)) hrest
        (by rw [pushCommand_fst]; exact hst) p
      simpa [parseGo, matchChar] using this
    by_cases h7 : c = '['
    · subst h7
      have := ih { st with runningLoops := (q, .nil) :: st.runningLoops } hrest
        (by
          intro cp hcp
          simp only [List.map_cons, List.mem_cons] at hcp
          rcases hcp with hcp | hcp
          · subst hcp; exact hq
          · exact hst cp hcp) p
      simpa [parseGo, matchChar] using this
    by_cases h8 : c = ']'
    · subst h8
      cases hrl : st.runningLoops with
      | nil =>
        refine ⟨?_, by simp [parseGo, matchChar, hrl]⟩
        intro h
        simp [parseGo, matchChar, hrl] at h
        subst h
        exact hq
      | cons hd tl =>
        obtain ⟨cp0, body⟩ := hd
        have := ih (ParseStack.pushCommand { st with runningLoops := tl } (.loop 0 body false))
          hrest
          (by
            rw [pushCommand_fst]
            intro cp hcp
            exact hst cp (by simp only [hrl, List.map_cons]; simp [hcp])) p
        simpa [parseGo, matchChar, hrl] using this
    · have := ih st hrest hst p
      simpa [parseGo, matchChar, h1, h2, h3, h4, h5, h6, h7, h8] using this

/-- C3. For every source string, the optimizing parser succeeds exactly when
the brackets are balanced; a failure is a structured error that either
carries the code point of the offending `]` (`EndLoopWithoutStart`) or the
code point of an unclosed `[` (`UnterminatedLoop`), and no IR is returned. -/
theorem parse_ok_iff_balanced_and_err_codepoints (s : String) :
    (exceptOk (parse s) = bracketBal s.toList 0) ∧
    (∀ p, parse s = .error (.endLoopWithoutStart p) → s.toList.get? p = some ']') ∧
    (∀ p, parse s = .error (.unterminatedLoop p) → s.toList.get? p = some '[') := by
  refine ⟨?_, ?_, ?_⟩
  · have := parseGo_ok_iff (enumFrom 0 s.toList) ⟨.nil, []⟩
    simpa [parse, enumFrom_snd] using this
  · intro p
    exact (parseGo_err s.toList (enumFrom 0 s.toList) ⟨.nil, []⟩
      (fun pc hpc => by simpa using (enumFrom_mem s.toList 0 pc hpc).2)
      (by simp) p).1
  · intro p
    exact (parseGo_err s.toList (enumFrom 0 s.toList) ⟨.nil, []⟩
      (fun pc hpc => by simpa using (enumFrom_mem s.toList 0 pc hpc).2)
      (by simp) p).2

/-- Witness for C3 at concrete inputs: the lone `]` of `"]"` is reported at
code point 0, and the lone `[` of `"["` likewise. -/
theorem parse_ok_iff_balanced_and_err_codepoints_witness :
    ("]".toList.get? 0 = some ']') ∧ ("[".toList.get? 0 = some '[') :=
  ⟨(parse_ok_iff_balanced_and_err_codepoints "]").2.1 0 rfl,
    (parse_ok_iff_balanced_and_err_codepoints "[").2.2 0 rfl⟩

/-! ## C2: the source `"+[]"` -/

/-- C2. Compiling `"+[]"` does not succeed: the loop body is empty, so
`only_data` yields an empty effect map, the condition offset is absent, and
`const_loop_remove` reaches `offsets.remove(&cond_dp_offset).unwrap()` on an
empty map — a panic — during the very first optimizer round, regardless of
the fixed-point fuel. No bytecode (in particular no `InfiniteLoop`
instruction) is ever produced, and the optimized VM is never entered. -/
theorem fullParse_plus_empty_loop_panics (n : Nat) :
    fullParseFuel (n + 1) "+[]" = .panicked := by
  have hp : parse "+[]" =
      .ok (.cons (.modData (.addData 1) 0) (.cons (.loop 0 .nil false) .nil)) := rfl
  have hs : optStep (.cons (.modData (.addData 1) 0) (.cons (.loop 0 .nil false) .nil)) =
      none := rfl
  simp [fullParseFuel, hp, optimizeFuel, hs]

/-! ## C4 and C5: shift movement in the reorder pass -/

/-- C4 counterexample. The reorder pass does move a `Shift` across an
`InfiniteLoop`, a `WriteConst`, a `Loop` and an `IfNonZero` branch: on each
two-node input below the relative order is not preserved (and the loop and
branch get their condition offsets rewritten). -/
theorem sortCommands_moves_shift_across_barriers :
    sortCommands (.cons (.shiftDataPtr 1) (.cons .infiniteLoop .nil)) =
      (.cons .infiniteLoop (.cons (.shiftDataPtr 1) .nil), 1) ∧
    sortCommands (.cons (.shiftDataPtr 1) (.cons (.writeConst 7) .nil)) =
      (.cons (.writeConst 7) (.cons (.shiftDataPtr 1) .nil), 1) ∧
    sortCommands (.cons (.shiftDataPtr 1) (.cons (.loop 0 .nil false) .nil)) =
      (.cons (.loop 1 .nil false) (.cons (.shiftDataPtr 1) .nil), 1) ∧
    sortCommands (.cons (.shiftDataPtr 1) (.cons (.ifNonZero 0 .nil) .nil)) =
      (.cons (.ifNonZero 1 .nil) (.cons (.shiftDataPtr 1) .nil), 1) := by
  decide

/-- C4 amended. In one reorder sweep a leading `Shift(k)` is swapped past
any immediately following non-`Shift` node — including loops, branches,
`WriteConst` and `InfiniteLoop` — after rewriting that node's offsets with
`shiftCommand`; only two consecutive `Shift` nodes are never swapped. -/
theorem sortCommandsStep_shift_behavior :
    (∀ (k : Int) (b : AST), isShiftB b = false →
      sortCommandsStep (.cons (.shiftDataPtr k) (.cons b .nil)) =
        (.cons (shiftCommand b k) (.cons (.shiftDataPtr k) .nil), 1)) ∧
    (∀ k m : Int,
      sortCommandsStep (.cons (.shiftDataPtr k) (.cons (.shiftDataPtr m) .nil)) =
        (.cons (.shiftDataPtr k) (.cons (.shiftDataPtr m) .nil), 0)) := by
  constructor
  · intro k b hb
    cases b <;> simp_all [sortCommandsStep, bubbleGo, maybeSwap, isShiftB]
  · intro k m
    simp [sortCommandsStep, bubbleGo, maybeSwap, isShiftB]

/-- Witness for the amended C4: a shift swaps past an `InfiniteLoop`, and
two shifts stay put. -/
theorem sortCommandsStep_shift_behavior_witness :
    sortCommandsStep (.cons (.shiftDataPtr 1) (.cons .infiniteLoop .nil)) =
      (.cons (shiftCommand .infiniteLoop 1) (.cons (.shiftDataPtr 1) .nil), 1) ∧
    sortCommandsStep (.cons (.shiftDataPtr 1) (.cons (.shiftDataPtr 2) .nil)) =
      (.cons (.shiftDataPtr 1) (.cons (.shiftDataPtr 2) .nil), 0) :=
  ⟨sortCommandsStep_shift_behavior.1 1 .infiniteLoop rfl,
    sortCommandsStep_shift_behavior.2 1 2⟩

/-- C5 counterexample. When the reorder pass moves `Shift(1)` past
`Mod(Add(1), Δ=0)`, the node's offset is rewritten to `0 + 1 = 1`, not to
`0 - 1` as the claim's `Δ − k` would demand. -/
theorem shift_rewrite_is_plus_k_counterexample :
    sortCommands (.cons (.shiftDataPtr 1) (.cons (.modData (.addData 1) 0) .nil)) =
      (.cons (.modData (.addData 1) (0 + 1)) (.cons (.shiftDataPtr 1) .nil), 1) ∧
    (0 + 1 : Int) ≠ 0 - 1 := by
  decide

/-! ## C6: `Mod(Add(0))` in rewrite outputs -/

/-- C6 counterexample. The collapse pass outputs `Mod(Add(0), 0)` on the
(Add-0-free) input `+ -`, and the simulation pass outputs `Mod(Add(0), 2)`
for a `Combine` whose source cell is known zero; moreover the reorder pass
simply passes an existing `Mod(Add(0))` through, so no pass output is free
of `Mod(Add(0))` for every input. -/
theorem rewrites_can_output_add0 :
    (noAdd0 (.cons (.modData (.addData 1) 0) (.cons (.modData (.addData 255) 0) .nil)) = true ∧
      collapseConsecutive
          (.cons (.modData (.addData 1) 0) (.cons (.modData (.addData 255) 0) .nil)) =
        (.cons (.modData (.addData 0) 0) .nil, 1) ∧
      noAdd0 (.cons (.modData (.addData 0) 0) .nil) = false) ∧
    (noAdd0 (.cons (.combineData 1 2 1) .nil) = true ∧
      runSimulation (.cons (.combineData 1 2 1) .nil) =
        (.cons (.modData (.addData 0) 2) .nil, 1) ∧
      noAdd0 (.cons (.modData (.addData 0) 2) .nil) = false) ∧
    sortCommands (.cons (.modData (.addData 0) 0) .nil) =
      (.cons (.modData (.addData 0) 0) .nil, 0) := by
  decide

/-! ## C8: recursion of the collapse pass -/

/-- C8 counterexample. The collapse pass leaves the two mergeable `Mod`
nodes inside an `IfNonZero` branch untouched (count 0), while the same body
inside a `Loop` is collapsed — so collapse is not applied inside branch
bodies. -/
theorem collapse_skips_ifNonZero_bodies :
    collapseConsecutive
        (.cons (.ifNonZero 0
          (.cons (.modData (.addData 1) 0) (.cons (.modData (.addData 1) 0) .nil))) .nil) =
      (.cons (.ifNonZero 0
        (.cons (.modData (.addData 1) 0) (.cons (.modData (.addData 1) 0) .nil))) .nil, 0) ∧
    collapseConsecutive
        (.cons (.loop 5
          (.cons (.modData (.addData 1) 0) (.cons (.modData (.addData 1) 0) .nil)) false) .nil) =
      (.cons (.loop 5 (.cons (.modData (.addData 2) 0) .nil) false) .nil, 1) := by
  decide

/-- C8 amended. The collapse pass is applied recursively inside the body of
every `Loop`, but an `IfNonZero` node passes through with its body
unchanged and contributes no collapse count. -/
theorem collapse_recurses_into_loops_only (c : Int) (els : ASTList) (nt : Bool) :
    collapseConsecutive (.cons (.loop c els nt) .nil) =
      (.cons (.loop c (collapseConsecutive els).1 nt) .nil, (collapseConsecutive els).2) ∧
    collapseConsecutive (.cons (.ifNonZero c els) .nil) =
      (.cons (.ifNonZero c els) .nil, 0) := by
  constructor
  · cases els with
    | nil =>
      simp [collapseConsecutive, collapseInner, collapseInnerOne, collapseFoldStart,
        collapseFold]
    | cons a rest =>
      simp only [collapseConsecutive, collapseInner, collapseInnerOne]
      rcases h1 : collapseInner (ASTList.cons a rest) with ⟨e1, n1⟩
      rcases h2 : collapseFoldStart e1 with ⟨e2, n2⟩
      simp [collapseFoldStart, collapseFold, collapsePair, h1, h2]
  · simp [collapseConsecutive, collapseInner, collapseInnerOne, collapseFoldStart,
      collapseFold, collapsePair]

/-! ## C1: the optimizing pipeline versus the reference interpreter -/

theorem optVmRun_halted (prog : List CompiledInstr) (input : List Nat) (n : Nat) (s : OptSt)
    (h : prog[s.ip]? = none) : optVmRun prog input n s = s := by
  cases n with
  | zero => rfl
  | succ m => simp [optVmRun, optVmStep, h]

theorem c1Inv_step (s s2 : SimpleSt) (h : c1Inv s) (hs : simpleStep c1Prog [] s = .next s2) :
    c1Inv s2 := by
  obtain ⟨hdp, hin, hout, hlt, hc⟩ := h
  rcases hc with ⟨hip, hv⟩ | ⟨hip, hv⟩ | ⟨hip, hv⟩ | ⟨hip, hv⟩ | ⟨hip, hv⟩ | ⟨hip, hv⟩ |
    ⟨hip, hv⟩
  · -- ip = 0, incByte
    have hg : c1Prog[s.ip]? = some (.incByte 0) := by rw [hip]; rfl
    simp only [simpleStep, hg, hdp] at hs
    norm_num at hs
    subst hs
    refine ⟨rfl, hin, hout, ?_, ?_⟩ <;> simp [hip, hv, wAdd]
  · -- ip = 1, incByte
    have hg : c1Prog[s.ip]? = some (.incByte 1) := by rw [hip]; rfl
    simp only [simpleStep, hg, hdp] at hs
    norm_num at hs
    subst hs
    refine ⟨rfl, hin, hout, ?_, ?_⟩ <;> simp [hip, hv, wAdd]
  · -- ip = 2, incByte
    have hg : c1Prog[s.ip]? = some (.incByte 2) := by rw [hip]; rfl
    simp only [simpleStep, hg, hdp] at hs
    norm_num at hs
    subst hs
    refine ⟨rfl, hin, hout, ?_, ?_⟩ <;> simp [hip, hv, wAdd]
  · -- ip = 3, loopStart: the cell is odd, hence nonzero, so we enter the body
    have hg : c1Prog[s.ip]? = some (.loopStart 3 6) := by rw [hip]; rfl
    simp only [simpleStep, hg, hdp] at hs
    norm_num at hs
    rw [if_neg (by omega : ¬ s.data 0 = 0)] at hs
    subst hs
    refine ⟨rfl, hin, hout, hlt, ?_⟩
    simp [hip]
    omega
  · -- ip = 4, decByte
    have hg : c1Prog[s.ip]? = some (.decByte 4) := by rw [hip]; rfl
    simp only [simpleStep, hg, hdp] at hs
    norm_num at hs
    subst hs
    refine ⟨rfl, hin, hout, ?_, ?_⟩ <;> simp [hip, wAdd] <;> omega
  · -- ip = 5, decByte
    have hg : c1Prog[s.ip]? = some (.decByte 5) := by rw [hip]; rfl
    simp only [simpleStep, hg, hdp] at hs
    norm_num at hs
    subst hs
    refine ⟨rfl, hin, hout, ?_, ?_⟩ <;> simp [hip, wAdd] <;> omega
  · -- ip = 6, loopEnd: the cell is odd, hence nonzero, so we jump back to 3
    have hg : c1Prog[s.ip]? = some (.loopEnd 6 3) := by rw [hip]; rfl
    simp only [simpleStep, hg, hdp] at hs
    norm_num at hs
    rw [if_neg (by omega : ¬ s.data 0 = 0)] at hs
    subst hs
    refine ⟨rfl, hin, hout, hlt, ?_⟩
    simp
    omega

theorem c1Inv_run : ∀ (n : Nat) (s : SimpleSt), c1Inv s → c1Inv (simpleRun c1Prog [] n s) := by
  intro n
  induction n with
  | zero => intro s h; exact h
  | succ m ih =>
    intro s h
    cases hstep : simpleStep c1Prog [] s with
    | next s2 =>
      rw [simpleRun, hstep]
      exact ih s2 (c1Inv_step s s2 h hstep)
    | halt => rw [simpleRun, hstep]; exact h
    | crashed => rw [simpleRun, hstep]; exact h

/-- C1. The refinement claim fails on the balanced-bracket source
`"+++[--]."` with empty input. The optimizing pipeline compiles it (at its
fixed point, reached after three rounds) to the single instruction
`WriteConst 0` — the acknowledged `TODO BUG` in `const_loop_remove`
replaces the non-terminating `[--]` loop (cell 3 is odd; subtracting 2 mod
256 never reaches 0) by `Set(0)` — so the optimized VM outputs the byte 0
and consumes no input. The reference interpreter instead never leaves
instructions 0–6: after any number of dispatch steps it has produced no
output (and consumed no input), so the two back-ends' outputs differ. -/
theorem optimized_vs_reference_diverge_on_odd_decrement_loop :
    (fullParseFuel 5 "+++[--]." = .success [.writeConst 0]) ∧
    (∀ n : Nat,
      (optVmRun [.writeConst 0] [] (n + 1) optInit).output = [0] ∧
      (optVmRun [.writeConst 0] [] (n + 1) optInit).inputPos = 0) ∧
    (simpleParse "+++[--]." = .ok c1Prog) ∧
    (∀ n : Nat,
      (simpleRun c1Prog [] n simpleInit).output = [] ∧
      (simpleRun c1Prog [] n simpleInit).inputPos = 0) := by
  refine ⟨by decide, ?_, rfl, ?_⟩
  · intro n
    have h1 : optVmStep [.writeConst 0] [] optInit =
        .next { optInit with output := [0], ip := 1 } := rfl
    have h2 : optVmRun [.writeConst 0] [] (n + 1) optInit =
        { optInit with output := [0], ip := 1 } := by
      rw [optVmRun, h1]
      exact optVmRun_halted _ _ _ _ rfl
    rw [h2]
    exact ⟨rfl, rfl⟩
  · intro n
    have h := c1Inv_run n simpleInit ⟨rfl, rfl, rfl, by norm_num [simpleInit], Or.inl ⟨rfl, rfl⟩⟩
    exact ⟨h.2.2.1, h.2.1⟩

/-! ## C10: jump consistency of the reference parser -/

theorem spAppend_stackOk {code : List Instr} {stack : List Nat} (x : Instr)
    (h : SpStackOk code stack) : SpStackOk (code ++ [x]) stack := by
  intro s hs
  obtain ⟨h1, cp, h2⟩ := h s hs
  exact ⟨by simp; omega, cp, by rw [List.getElem?_append_left h1]; exact h2⟩

theorem spAppend_startsOk {code : List Instr} {stack : List Nat} (x : Instr)
    (hx : ∀ cp e, x ≠ .loopStart cp e) (h : SpStartsOk code stack) :
    SpStartsOk (code ++ [x]) stack := by
  intro i cp e hi hni
  rcases Nat.lt_trichotomy i code.length with hlt | heq | hgt
  · rw [List.getElem?_append_left hlt] at hi
    obtain ⟨h1, h2, cp2, h3⟩ := h i cp e hi hni
    exact ⟨h1, by simp; omega, cp2, by rw [List.getElem?_append_left h2]; exact h3⟩
  · subst heq
    rw [List.getElem?_concat_length] at hi
    exact absurd (Option.some.inj hi) (hx cp e)
  · rw [List.getElem?_eq_none (by simp; omega)] at hi
    cases hi

theorem spAppend_endsOk {code : List Instr} (x : Instr)
    (hx : ∀ cp st, x ≠ .loopEnd cp st) (h : SpEndsOk code) : SpEndsOk (code ++ [x]) := by
  intro j cp st hj
  rcases Nat.lt_trichotomy j code.length with hlt | heq | hgt
  · rw [List.getElem?_append_left hlt] at hj
    obtain ⟨h1, cp2, h2⟩ := h j cp st hj
    refine ⟨h1, cp2, ?_⟩
    rw [List.getElem?_append_left (by omega)]
    exact h2
  · subst heq
    rw [List.getElem?_concat_length] at hj
    exact absurd (Option.some.inj hj) (hx cp st)
  · rw [List.getElem?_eq_none (by simp; omega)] at hj
    cases hj

theorem spGo_inv :
    ∀ (l : List (Nat × Char)) (code : List Instr) (stack : List Nat) (out : List Instr),
      simpleParseGo l code stack code.length = .ok out →
      SpStackOk code stack → stack.Pairwise (· > ·) →
      SpStartsOk code stack → SpEndsOk code →
      SpStartsOk out [] ∧ SpEndsOk out := by
  intro l
  induction l with
  | nil =>
    intro code stack out h h1 h2 h3 h4
    cases stack with
    | nil =>
      simp [simpleParseGo] at h
      subst h
      exact ⟨fun i cp e hi _ => h3 i cp e hi (by simp), h4⟩
    | cons s tl => simp [simpleParseGo] at h
  | cons pc rest ih =>
    intro code stack out h h1 h2 h3 h4
    obtain ⟨q, c⟩ := pc
    -- helper facts for the six plain one-instruction cases
    have step : ∀ (x : Instr), (∀ cp e, x ≠ .loopStart cp e) → (∀ cp st, x ≠ .loopEnd cp st) →
        simpleParseGo rest (code ++ [x]) stack (code.length + 1) = .ok out →
        SpStartsOk out [] ∧ SpEndsOk out := by
      intro x hxs hxe hrec
      have hlen : code.length + 1 = (code ++ [x]).length := by simp
      rw [hlen] at hrec
      refine ih (code ++ [x]) stack out hrec (spAppend_stackOk x h1) h2
        (spAppend_startsOk x hxs h3) (spAppend_endsOk x hxe h4)
    by_cases hc1 : c = '>'
    · subst hc1
      simp only [simpleParseGo, if_pos rfl] at h
      exact step _ (by intro cp e; simp) (by intro cp st; simp) h
    by_cases hc2 : c = '<'
    · subst hc2
      simp only [simpleParseGo, reduceIte] at h
      exact step _ (by intro cp e; simp) (by intro cp st; simp) h
    by_cases hc3 : c = '+'
    · subst hc3
      simp only [simpleParseGo, reduceIte] at h
      exact step _ (by intro cp e; simp) (by intro cp st; simp) h
    by_cases hc4 : c = '-'
    · subst hc4
      simp only [simpleParseGo, reduceIte] at h
      exact step _ (by intro cp e; simp) (by intro cp st; simp) h
    by_cases hc5 : c = '.'
    · subst hc5
      simp only [simpleParseGo, reduceIte] at h
      exact step _ (by intro cp e; simp) (by intro cp st; simp) h
    by_cases hc6 : c = ','
    · subst hc6
      simp only [simpleParseGo, reduceIte] at h
      exact step _ (by intro cp e; simp) (by intro cp st; simp) h
    by_cases hc7 : c = '['
    · subst hc7
      simp only [simpleParseGo, reduceIte] at h
      have hlen : code.length + 1 = (code ++ [Instr.loopStart q 0]).length := by simp
      rw [hlen] at h
      refine ih _ _ out h ?_ ?_ ?_ ?_
      · -- new stack invariant
        intro s hs
        rcases List.mem_cons.mp hs with hseq | hs2
        · subst hseq
          exact ⟨by simp, q, List.getElem?_concat_length _ _⟩
        · obtain ⟨hb, cp, hg⟩ := h1 s hs2
          exact ⟨by simp; omega, cp, by rw [List.getElem?_append_left hb]; exact hg⟩
      · -- pairwise
        refine List.pairwise_cons.mpr ⟨?_, h2⟩
        intro s hs
        exact (h1 s hs).1
      · -- starts invariant for the grown stack
        intro i cp e hi hni
        rcases Nat.lt_trichotomy i code.length with hlt | heq | hgt
        · rw [List.getElem?_append_left hlt] at hi
          have hni2 : i ∉ stack := fun hmem => hni (List.mem_cons.mpr (Or.inr hmem))
          obtain ⟨ha, hb, cp2, hgg⟩ := h3 i cp e hi hni2
          exact ⟨ha, by simp; omega, cp2, by rw [List.getElem?_append_left hb]; exact hgg⟩
        · subst heq
          exact absurd (List.mem_cons.mpr (Or.inl rfl)) hni
        · rw [List.getElem?_eq_none (by simp; omega)] at hi
          cases hi
      · -- ends invariant
        exact spAppend_endsOk _ (by intro cp st; simp) h4
    by_cases hc8 : c = ']'
    · subst hc8
      simp only [simpleParseGo, reduceIte] at h
      cases hst : stack with
      | nil => rw [hst] at h; simp at h
      | cons s0 tl =>
        rw [hst] at h
        obtain ⟨hs0lt, cp, hs0⟩ := h1 s0 (by rw [hst]; exact List.mem_cons.mpr (Or.inl rfl))
        have h' : (match code[s0]? with
            | none => (Except.error () : Except Unit (List Instr))
            | some (Instr.loopStart cp2 _) =>
              simpleParseGo rest
                ((code.set s0 (Instr.loopStart cp2 code.length)) ++ [Instr.loopEnd q s0]) tl
                (code.length + 1)
            | some _ => Except.error ()) = .ok out := h
        clear h
        rw [hs0] at h'
        rename' h' => h
        have hs0tl : ∀ s2 ∈ tl, s0 > s2 := by
          have := List.pairwise_cons.mp (hst ▸ h2)
          exact this.1
        have htl : tl.Pairwise (· > ·) := (List.pairwise_cons.mp (hst ▸ h2)).2
        -- the new code after back-patch and push
        have hcat : ∀ (l : List Instr) (a : Instr) (n : Nat), n = l.length →
            (l ++ [a])[n]? = some a := by
          intro l a n hn
          subst hn
          exact List.getElem?_concat_length l a
        have hlen : code.length + 1 =
            ((code.set s0 (Instr.loopStart cp code.length)) ++
              [Instr.loopEnd q s0]).length := by simp
        rw [hlen] at h
        refine ih _ _ out h ?_ htl ?_ ?_
        · -- stack invariant for tl
          intro s2 hs2
          obtain ⟨hb, cp2, hg⟩ := h1 s2 (by rw [hst]; exact List.mem_cons.mpr (Or.inr hs2))
          have hne : s0 ≠ s2 := Nat.ne_of_gt (hs0tl s2 hs2)
          refine ⟨by simp; omega, cp2, ?_⟩
          rw [List.getElem?_append_left (by simp; omega), List.getElem?_set_ne hne]
          exact hg
        · -- starts invariant
          intro i cp2 e hi hni
          rcases Nat.lt_trichotomy i code.length with hlt | heq | hgt
          · rw [List.getElem?_append_left (by simp; omega)] at hi
            by_cases hieq : i = s0
            · subst hieq
              rw [List.getElem?_set_eq_of_lt _ hs0lt] at hi
              obtain ⟨rfl, rfl⟩ : cp = cp2 ∧ code.length = e := by
                have := Option.some.inj hi
                injection this with a b
                exact ⟨a, b⟩
              exact ⟨hs0lt, by simp, q, hcat _ _ _ (by simp)⟩
            · rw [List.getElem?_set_ne (fun hh => hieq hh.symm)] at hi
              have hni2 : i ∉ stack := by
                rw [hst]
                intro hmem
                rcases List.mem_cons.mp hmem with h' | h'
                · exact hieq h'
                · exact hni h'
              obtain ⟨ha, hb, cp3, hgg⟩ := h3 i cp2 e hi hni2
              have hes0 : s0 ≠ e := by
                intro hh
                subst hh
                rw [hs0] at hgg
                cases hgg
              refine ⟨ha, by simp; omega, cp3, ?_⟩
              rw [List.getElem?_append_left (by simp; omega), List.getElem?_set_ne hes0]
              exact hgg
          · subst heq
            rw [hcat _ _ _ (by simp)] at hi
            simp at hi
          · rw [List.getElem?_eq_none (by simp; omega)] at hi
            cases hi
        · -- ends invariant
          intro j cp2 st hj
          rcases Nat.lt_trichotomy j code.length with hlt | heq | hgt
          · rw [List.getElem?_append_left (by simp; omega)] at hj
            by_cases hjeq : j = s0
            · subst hjeq
              rw [List.getElem?_set_eq_of_lt _ hs0lt] at hj
              cases Option.some.inj hj
            · rw [List.getElem?_set_ne (fun hh => hjeq hh.symm)] at hj
              obtain ⟨ha, cp3, hgg⟩ := h4 j cp2 st hj
              have hsts0 : s0 ≠ st := by
                intro hh
                subst hh
                rw [hs0] at hgg
                have := Option.some.inj hgg
                injection this with a b
                omega
              refine ⟨ha, cp3, ?_⟩
              rw [List.getElem?_append_left (by simp; omega), List.getElem?_set_ne hsts0]
              exact hgg
          · subst heq
            rw [hcat _ _ _ (by simp)] at hj
            obtain ⟨rfl, rfl⟩ : q = cp2 ∧ s0 = st := by
              have := Option.some.inj hj
              injection this with a b
              exact ⟨a, b⟩
            refine ⟨by omega, cp, ?_⟩
            rw [List.getElem?_append_left (by simp; omega),
              List.getElem?_set_eq_of_lt _ hs0lt]
          · rw [List.getElem?_eq_none (by simp; omega)] at hj
            cases hj
    · -- comment character: nothing changes
      simp only [simpleParseGo, hc1, hc2, hc3, hc4, hc5, hc6, hc7, hc8, reduceIte] at h
      exact ih code stack out h h1 h2 h3 h4

/-- C10. Whenever the reference parser succeeds, the instruction list is
jump-consistent: every `LoopStart`'s `end_ip` is the in-bounds index of the
`LoopEnd` that carries its own index as `start_ip`, and symmetrically every
`LoopEnd`'s `start_ip` is the index of the `LoopStart` whose `end_ip` is
the `LoopEnd`'s index; starts strictly precede their ends. -/
theorem simpleParse_jump_consistent (s : String) (code : List Instr)
    (h : simpleParse s = .ok code) :
    (∀ i cp e, code[i]? = some (Instr.loopStart cp e) →
      i < e ∧ e < code.length ∧ ∃ cp2, code[e]? = some (Instr.loopEnd cp2 i)) ∧
    (∀ j cp st, code[j]? = some (Instr.loopEnd cp st) →
      st < j ∧ ∃ cp2, code[st]? = some (Instr.loopStart cp2 j)) := by
  have := spGo_inv (enumFrom 0 s.toList) [] [] code h
    (by intro s2 hs2; cases hs2) (by simp)
    (by intro i cp e hi _; rw [List.getElem?_eq_none (by simp)] at hi; cases hi)
    (by intro j cp st hj; rw [List.getElem?_eq_none (by simp)] at hj; cases hj)
  exact ⟨fun i cp e hi => this.1 i cp e hi (by simp), this.2⟩

/-- Witness for C10 on the program `"+++[--]."`: the `LoopStart` at index 3
points at the `LoopEnd` at index 6 and vice versa. -/
theorem simpleParse_jump_consistent_witness :
    3 < 6 ∧ 6 < c1Prog.length ∧ ∃ cp2, c1Prog[6]? = some (Instr.loopEnd cp2 3) :=
  (simpleParse_jump_consistent "+++[--]." c1Prog rfl).1 3 3 6 rfl

/-! ## C7: lowering structure and jump-target bounds -/

theorem AST.size_pos (cmd : AST) : 1 ≤ cmd.size := by
  cases cmd <;> simp [AST.size]

theorem set_append_length {α : Type} (l1 l2 : List α) (a b : α) :
    (l1 ++ a :: l2).set l1.length b = l1 ++ b :: l2 := by
  induction l1 with
  | nil => simp
  | cons x rest ih => simp [List.set, ih]

/-- The accumulating, back-patching `compile_ast_helper` equals appending
the compositional base-indexed lowering. -/
theorem compile_eq_lower : ∀ (n : Nat),
    (∀ (cmd : AST), cmd.size ≤ n → ∀ out, compileOne out cmd = out ++ lowerOne out.length cmd) ∧
    (∀ (cmds : ASTList), cmds.size ≤ n → ∀ out,
      compileHelper out cmds = out ++ lowerList out.length cmds) := by
  intro n
  induction n using Nat.strong_induction_on with
  | _ n ih =>
    constructor
    · intro cmd hsz out
      cases cmd with
      | loop c els nt =>
        have hn : 1 ≤ n := le_trans (AST.size_pos _) hsz
        have hels : els.size ≤ n - 1 := by simp [AST.size] at hsz; omega
        have h2 := (ih (n - 1) (by omega)).2 els hels (out ++ [.jumpIfZero c 0])
        simp only [compileOne, h2]
        have hlen : (out ++ [CompiledInstr.jumpIfZero c 0]).length = out.length + 1 := by simp
        rw [hlen]
        have hassoc : out ++ [CompiledInstr.jumpIfZero c 0] ++
            lowerList (out.length + 1) els ++ [CompiledInstr.jumpIfNonzero c out.length] =
            out ++ (CompiledInstr.jumpIfZero c 0 ::
              (lowerList (out.length + 1) els ++ [CompiledInstr.jumpIfNonzero c out.length])) := by
          simp
        rw [hassoc, set_append_length]
        simp [lowerOne]
        omega
      | ifNonZero c els =>
        have hn : 1 ≤ n := le_trans (AST.size_pos _) hsz
        have hels : els.size ≤ n - 1 := by simp [AST.size] at hsz; omega
        have h2 := (ih (n - 1) (by omega)).2 els hels (out ++ [.jumpIfZero c 0])
        simp only [compileOne, h2]
        have hlen : (out ++ [CompiledInstr.jumpIfZero c 0]).length = out.length + 1 := by simp
        rw [hlen]
        have hassoc : out ++ [CompiledInstr.jumpIfZero c 0] ++
            lowerList (out.length + 1) els =
            out ++ (CompiledInstr.jumpIfZero c 0 :: lowerList (out.length + 1) els) := by
          simp
        rw [hassoc, set_append_length]
        simp [lowerOne]
        omega
      | shiftDataPtr a =>
        by_cases h1 : 0 < a
        · simp [compileOne, lowerOne, h1]
        · by_cases h2 : a < 0 <;> simp [compileOne, lowerOne, h1, h2]
      | modData kind d => cases kind <;> simp [compileOne, lowerOne]
      | infiniteLoop => simp [compileOne, lowerOne]
      | combineData s t m => simp [compileOne, lowerOne]
      | readByte d => simp [compileOne, lowerOne]
      | writeByte d => simp [compileOne, lowerOne]
      | writeConst b => simp [compileOne, lowerOne]
      | shiftLoop c k nt => simp [compileOne, lowerOne]
      | assertEquals d v => simp [compileOne, lowerOne]
    · intro cmds hsz out
      cases cmds with
      | nil => simp [compileHelper, lowerList]
      | cons cmd rest =>
        have hn : 1 ≤ n := by
          have := AST.size_pos cmd
          simp [ASTList.size] at hsz
          omega
        have hc : cmd.size ≤ n - 1 := by
          simp [ASTList.size] at hsz
          omega
        have hr : rest.size ≤ n - 1 := by
          have := AST.size_pos cmd
          simp [ASTList.size] at hsz
          omega
        have h1 := (ih (n - 1) (by omega)).1 cmd hc out
        have h2 := (ih (n - 1) (by omega)).2 rest hr (compileOne out cmd)
        rw [h1] at h2
        simp only [compileHelper]
        rw [h1, h2]
        simp [lowerList]

theorem jumpTargetOkAt_mono {m m2 : Nat} (instr : CompiledInstr) (h : m ≤ m2)
    (hok : jumpTargetOkAt m instr = true) : jumpTargetOkAt m2 instr = true := by
  cases instr <;> simp [jumpTargetOkAt] at hok ⊢ <;> omega

/-- Every jump target of the base-indexed lowering lies within
`[0, base + length]`. -/
theorem lower_targets_le : ∀ (n : Nat),
    (∀ (cmd : AST), cmd.size ≤ n → ∀ base instr, instr ∈ lowerOne base cmd →
      jumpTargetOkAt (base + (lowerOne base cmd).length) instr = true) ∧
    (∀ (cmds : ASTList), cmds.size ≤ n → ∀ base instr, instr ∈ lowerList base cmds →
      jumpTargetOkAt (base + (lowerList base cmds).length) instr = true) := by
  intro n
  induction n using Nat.strong_induction_on with
  | _ n ih =>
    constructor
    · intro cmd hsz base instr hmem
      cases cmd with
      | loop c els nt =>
        have hels : els.size ≤ n - 1 := by simp [AST.size] at hsz; omega
        have hn : 1 ≤ n := le_trans (AST.size_pos _) hsz
        simp only [lowerOne, List.mem_cons, List.mem_append] at hmem
        rcases hmem with rfl | hmem | rfl | h0
        · simp [jumpTargetOkAt, lowerOne]
          omega
        · have := (ih (n - 1) (by omega)).2 els hels (base + 1) instr hmem
          refine jumpTargetOkAt_mono instr ?_ this
          simp only [lowerOne, List.length_cons, List.length_append, List.length_singleton]
          omega
        · simp [jumpTargetOkAt, lowerOne]
        · cases h0
      | ifNonZero c els =>
        have hels : els.size ≤ n - 1 := by simp [AST.size] at hsz; omega
        have hn : 1 ≤ n := le_trans (AST.size_pos _) hsz
        simp only [lowerOne, List.mem_cons] at hmem
        rcases hmem with rfl | hmem
        · simp [jumpTargetOkAt, lowerOne]
          omega
        · have := (ih (n - 1) (by omega)).2 els hels (base + 1) instr hmem
          refine jumpTargetOkAt_mono instr ?_ this
          simp only [lowerOne, List.length_cons]
          omega
      | shiftLoop c k nt =>
        simp only [lowerOne, List.mem_cons] at hmem
        rcases hmem with rfl | rfl | rfl | h0
        · simp [jumpTargetOkAt, lowerOne]
        · by_cases hk : k < 0 <;> simp [jumpTargetOkAt, hk]
        · simp [jumpTargetOkAt, lowerOne]
        · cases h0
      | shiftDataPtr a =>
        by_cases h1 : 0 < a
        · simp only [lowerOne, h1, if_true, List.mem_singleton] at hmem
          subst hmem
          simp [jumpTargetOkAt]
        · by_cases h2 : a < 0
          · simp only [lowerOne, h1, h2, if_false, if_true, List.mem_singleton] at hmem
            subst hmem
            simp [jumpTargetOkAt]
          · simp [lowerOne, h1, h2] at hmem
      | modData kind d =>
        cases kind <;> simp only [lowerOne, List.mem_singleton] at hmem <;> subst hmem <;>
          simp [jumpTargetOkAt]
      | infiniteLoop =>
        simp only [lowerOne, List.mem_singleton] at hmem
        subst hmem
        simp [jumpTargetOkAt]
      | combineData s t m =>
        simp only [lowerOne, List.mem_singleton] at hmem
        subst hmem
        simp [jumpTargetOkAt]
      | readByte d =>
        simp only [lowerOne, List.mem_singleton] at hmem
        subst hmem
        simp [jumpTargetOkAt]
      | writeByte d =>
        simp only [lowerOne, List.mem_singleton] at hmem
        subst hmem
        simp [jumpTargetOkAt]
      | writeConst b =>
        simp only [lowerOne, List.mem_singleton] at hmem
        subst hmem
        simp [jumpTargetOkAt]
      | assertEquals d v =>
        simp only [lowerOne, List.mem_singleton] at hmem
        subst hmem
        simp [jumpTargetOkAt]
    · intro cmds hsz base instr hmem
      cases cmds with
      | nil => simp [lowerList] at hmem
      | cons cmd rest =>
        have hn : 1 ≤ n := by
          have := AST.size_pos cmd
          simp [ASTList.size] at hsz
          omega
        have hc : cmd.size ≤ n - 1 := by simp [ASTList.size] at hsz; omega
        have hr : rest.size ≤ n - 1 := by
          have := AST.size_pos cmd
          simp [ASTList.size] at hsz
          omega
        simp only [lowerList, List.mem_append] at hmem
        rcases hmem with hmem | hmem
        · have := (ih (n - 1) (by omega)).1 cmd hc base instr hmem
          refine jumpTargetOkAt_mono instr ?_ this
          simp only [lowerList, List.length_append]
          omega
        · have := (ih (n - 1) (by omega)).2 rest hr (base + (lowerOne base cmd).length)
            instr hmem
          refine jumpTargetOkAt_mono instr ?_ this
          simp only [lowerList, List.length_append]
          omega

/-- C7. Lowering is jump-consistent: (a) in the bytecode produced by
`compile_ast`, every `JumpIfZero`/`JumpIfNonzero` target lies within
`[0, program_len]`; (b) a `Loop` node lowers to a `JumpIfZero` at the
header index (targeting the index just after the loop's `JumpIfNonzero`)
followed by exactly the lowered body followed by a `JumpIfNonzero`
targeting the header index. -/
theorem compileAst_jump_targets_and_loop_frame :
    (∀ cmds : ASTList, jumpTargetsOk (compileAst cmds) = true) ∧
    (∀ (out : List CompiledInstr) (c : Int) (els : ASTList) (nt : Bool) (rest : ASTList),
      compileHelper out (.cons (.loop c els nt) rest) =
        compileHelper
          (out ++
            (CompiledInstr.jumpIfZero c
                (out.length + 1 + (lowerList (out.length + 1) els).length + 1) ::
              (lowerList (out.length + 1) els ++
                [CompiledInstr.jumpIfNonzero c out.length]))) rest) := by
  constructor
  · intro cmds
    have heq : compileAst cmds = lowerList 0 cmds := by
      have := (compile_eq_lower cmds.size).2 cmds le_rfl []
      simpa [compileAst] using this
    rw [heq, jumpTargetsOk, List.all_eq_true]
    intro instr hmem
    have := (lower_targets_le cmds.size).2 cmds le_rfl 0 instr hmem
    simpa using this
  · intro out c els nt rest
    have h1 : compileHelper out (.cons (.loop c els nt) rest) =
        compileHelper (compileOne out (.loop c els nt)) rest := by
      simp [compileHelper]
    rw [h1]
    have h2 := (compile_eq_lower (AST.size (.loop c els nt))).1 (.loop c els nt) le_rfl out
    rw [h2]
    simp [lowerOne]

/-! ## C5: semantics of shift absorption -/

theorem ASTList.size_lt_cons (cmd : AST) (rest : ASTList) :
    rest.size < (ASTList.cons cmd rest).size := by
  have := AST.size_pos cmd
  simp only [ASTList.size]
  omega

theorem AST.size_lt_cons_head (cmd : AST) (rest : ASTList) :
    cmd.size < (ASTList.cons cmd rest).size := by
  simp only [ASTList.size]
  omega

theorem els_size_lt_loop (c : Int) (els : ASTList) (nt : Bool) :
    els.size < (AST.loop c els nt).size := by
  simp only [AST.size]
  omega

theorem els_size_lt_ifNonZero (c : Int) (els : ASTList) :
    els.size < (AST.ifNonZero c els).size := by
  simp only [AST.size]
  omega

/-- Executing a sequence whose offsets were all rewritten by
`shiftCommand _ k` from dp `d` is the same as executing the original
sequence from dp `d + k`, up to shifting the final dp back by `k`. -/
theorem execList_shiftList : ∀ (fuel : Nat) (l : ASTList) (k : Int) (s : ExecState),
    execList fuel (shiftList l k) s =
      (execList fuel l { s with dp := s.dp + k }).map
        (fun s2 => { s2 with dp := s2.dp - k }) := by
  intro fuel
  induction fuel using Nat.strong_induction_on with
  | _ fuel ihf =>
    suffices h : ∀ (m : Nat) (l : ASTList), l.size ≤ m → ∀ (k : Int) (s : ExecState),
        execList fuel (shiftList l k) s =
          (execList fuel l { s with dp := s.dp + k }).map
            (fun s2 => { s2 with dp := s2.dp - k }) by
      intro l k s
      exact h l.size l le_rfl k s
    intro m
    induction m using Nat.strong_induction_on with
    | _ m ihm =>
      intro l hsz k s
      obtain ⟨dp0, tape0, in0, out0⟩ := s
      cases l with
      | nil => simp [shiftList, execList]
      | cons cmd rest =>
        have hrest : rest.size < m :=
          lt_of_lt_of_le (ASTList.size_lt_cons cmd rest) hsz
        cases cmd with
        | shiftDataPtr a =>
          simp only [shiftList, shiftCommand, execList]
          rw [ihm rest.size hrest rest le_rfl k]
          rw [show dp0 + a + k = dp0 + k + a from by ring]
        | modData kind d =>
          cases kind with
          | addData amt =>
            simp only [shiftList, shiftCommand, execList]
            rw [ihm rest.size hrest rest le_rfl k]
            rw [show dp0 + (d + k) = dp0 + k + d from by ring]
          | setData amt =>
            simp only [shiftList, shiftCommand, execList]
            rw [ihm rest.size hrest rest le_rfl k]
            rw [show dp0 + (d + k) = dp0 + k + d from by ring]
        | combineData src tgt mult =>
          simp only [shiftList, shiftCommand, execList]
          rw [ihm rest.size hrest rest le_rfl k]
          rw [show dp0 + (src + k) = dp0 + k + src from by ring,
            show dp0 + (tgt + k) = dp0 + k + tgt from by ring]
        | readByte d =>
          simp only [shiftList, shiftCommand, execList]
          rw [ihm rest.size hrest rest le_rfl k]
          rw [show dp0 + (d + k) = dp0 + k + d from by ring]
        | writeByte d =>
          simp only [shiftList, shiftCommand, execList]
          rw [ihm rest.size hrest rest le_rfl k]
          rw [show dp0 + (d + k) = dp0 + k + d from by ring]
        | writeConst b =>
          simp only [shiftList, shiftCommand, execList]
          rw [ihm rest.size hrest rest le_rfl k]
        | assertEquals d v =>
          simp only [shiftList, shiftCommand, execList]
          rw [ihm rest.size hrest rest le_rfl k]
        | infiniteLoop =>
          simp [shiftList, shiftCommand, execList]
        | ifNonZero c els =>
          have hels : els.size < m :=
            lt_of_lt_of_le
              (lt_trans (els_size_lt_ifNonZero c els)
                (AST.size_lt_cons_head (AST.ifNonZero c els) rest)) hsz
          simp only [shiftList, shiftCommand, execList]
          rw [show dp0 + (c + k) = dp0 + k + c from by ring]
          by_cases hc : tape0 (dp0 + k + c) = 0
          · simp only [hc, if_pos rfl]
            exact ihm rest.size hrest rest le_rfl k ⟨dp0, tape0, in0, out0⟩
          · rw [if_neg hc, if_neg hc]
            rw [ihm els.size hels els le_rfl k]
            rcases hEls : execList fuel els
                { dp := dp0 + k, tape := tape0, input := in0, output := out0 } with _ | s2
            · simp
            · obtain ⟨dp2, tape2, in2, out2⟩ := s2
              simp only [Option.map_some']
              rw [ihm rest.size hrest rest le_rfl k]
              rw [show dp2 - k + k = dp2 from by ring]
        | loop c els nt =>
          have hels : els.size < m :=
            lt_of_lt_of_le
              (lt_trans (els_size_lt_loop c els nt)
                (AST.size_lt_cons_head (AST.loop c els nt) rest)) hsz
          cases fuel with
          | zero =>
            simp only [shiftList, shiftCommand, execList]
            rw [show dp0 + (c + k) = dp0 + k + c from by ring]
            by_cases hc : tape0 (dp0 + k + c) = 0
            · simp only [hc, if_pos rfl]
              exact ihm rest.size hrest rest le_rfl k ⟨dp0, tape0, in0, out0⟩
            · simp [hc]
          | succ f =>
            simp only [shiftList, shiftCommand, execList]
            rw [show dp0 + (c + k) = dp0 + k + c from by ring]
            by_cases hc : tape0 (dp0 + k + c) = 0
            · simp only [hc, if_pos rfl]
              exact ihm rest.size hrest rest le_rfl k ⟨dp0, tape0, in0, out0⟩
            · rw [if_neg hc, if_neg hc]
              rw [ihm els.size hels els le_rfl k]
              rcases hEls : execList (f + 1) els
                  { dp := dp0 + k, tape := tape0, input := in0, output := out0 } with _ | s2
              · simp
              · obtain ⟨dp2, tape2, in2, out2⟩ := s2
                simp only [Option.map_some']
                have hre := ihf f (Nat.lt_succ_self f) (.cons (.loop c els nt) rest) k
                  { dp := dp2 - k, tape := tape2, input := in2, output := out2 }
                simp only [shiftList, shiftCommand] at hre
                rw [hre]
                rw [show dp2 - k + k = dp2 from by ring]
        | shiftLoop c k2 nt =>
          cases fuel with
          | zero =>
            simp only [shiftList, shiftCommand, execList]
            rw [show dp0 + (c + k) = dp0 + k + c from by ring]
            by_cases hc : tape0 (dp0 + k + c) = 0
            · simp only [hc, if_pos rfl]
              exact ihm rest.size hrest rest le_rfl k ⟨dp0, tape0, in0, out0⟩
            · simp [hc]
          | succ f =>
            simp only [shiftList, shiftCommand, execList]
            rw [show dp0 + (c + k) = dp0 + k + c from by ring]
            by_cases hc : tape0 (dp0 + k + c) = 0
            · simp only [hc, if_pos rfl]
              exact ihm rest.size hrest rest le_rfl k ⟨dp0, tape0, in0, out0⟩
            · rw [if_neg hc, if_neg hc]
              have hre := ihf f (Nat.lt_succ_self f) (.cons (.shiftLoop c k2 nt) rest) k
                { dp := dp0 + k2, tape := tape0, input := in0, output := out0 }
              simp only [shiftList, shiftCommand] at hre
              rw [hre]
              rw [show dp0 + k2 + k = dp0 + k + k2 from by ring]

/-- Moving a `Shift(k)` from the front of a sequence to its back, while
rewriting every node of the sequence with `shiftCommand _ k`, preserves
execution exactly: running the rewritten sequence followed by the shift
equals running the shift followed by the original sequence. -/
theorem execList_shift_absorb : ∀ (fuel : Nat) (l : ASTList) (k : Int) (s : ExecState),
    execList fuel ((shiftList l k).append (.cons (.shiftDataPtr k) .nil)) s =
      execList fuel l { s with dp := s.dp + k } := by
  intro fuel
  induction fuel using Nat.strong_induction_on with
  | _ fuel ihf =>
    suffices h : ∀ (m : Nat) (l : ASTList), l.size ≤ m → ∀ (k : Int) (s : ExecState),
        execList fuel ((shiftList l k).append (.cons (.shiftDataPtr k) .nil)) s =
          execList fuel l { s with dp := s.dp + k } by
      intro l k s
      exact h l.size l le_rfl k s
    intro m
    induction m using Nat.strong_induction_on with
    | _ m ihm =>
      intro l hsz k s
      obtain ⟨dp0, tape0, in0, out0⟩ := s
      cases l with
      | nil => simp [shiftList, ASTList.append, execList]
      | cons cmd rest =>
        have hrest : rest.size < m :=
          lt_of_lt_of_le (ASTList.size_lt_cons cmd rest) hsz
        cases cmd with
        | shiftDataPtr a =>
          simp only [shiftList, shiftCommand, ASTList.append, execList]
          rw [ihm rest.size hrest rest le_rfl k]
          rw [show dp0 + a + k = dp0 + k + a from by ring]
        | modData kind d =>
          cases kind with
          | addData amt =>
            simp only [shiftList, shiftCommand, ASTList.append, execList]
            rw [ihm rest.size hrest rest le_rfl k]
            rw [show dp0 + (d + k) = dp0 + k + d from by ring]
          | setData amt =>
            simp only [shiftList, shiftCommand, ASTList.append, execList]
            rw [ihm rest.size hrest rest le_rfl k]
            rw [show dp0 + (d + k) = dp0 + k + d from by ring]
        | combineData src tgt mult =>
          simp only [shiftList, shiftCommand, ASTList.append, execList]
          rw [ihm rest.size hrest rest le_rfl k]
          rw [show dp0 + (src + k) = dp0 + k + src from by ring,
            show dp0 + (tgt + k) = dp0 + k + tgt from by ring]
        | readByte d =>
          simp only [shiftList, shiftCommand, ASTList.append, execList]
          rw [ihm rest.size hrest rest le_rfl k]
          rw [show dp0 + (d + k) = dp0 + k + d from by ring]
        | writeByte d =>
          simp only [shiftList, shiftCommand, ASTList.append, execList]
          rw [ihm rest.size hrest rest le_rfl k]
          rw [show dp0 + (d + k) = dp0 + k + d from by ring]
        | writeConst b =>
          simp only [shiftList, shiftCommand, ASTList.append, execList]
          rw [ihm rest.size hrest rest le_rfl k]
        | assertEquals d v =>
          simp only [shiftList, shiftCommand, ASTList.append, execList]
          rw [ihm rest.size hrest rest le_rfl k]
        | infiniteLoop =>
          simp [shiftList, shiftCommand, ASTList.append, execList]
        | ifNonZero c els =>
          simp only [shiftList, shiftCommand, ASTList.append, execList]
          rw [show dp0 + (c + k) = dp0 + k + c from by ring]
          by_cases hc : tape0 (dp0 + k + c) = 0
          · rw [if_pos hc, if_pos hc]
            exact ihm rest.size hrest rest le_rfl k ⟨dp0, tape0, in0, out0⟩
          · rw [if_neg hc, if_neg hc]
            rw [execList_shiftList fuel els k ⟨dp0, tape0, in0, out0⟩]
            rcases hEls : execList fuel els
                { dp := dp0 + k, tape := tape0, input := in0, output := out0 } with _ | s2
            · simp
            · obtain ⟨dp2, tape2, in2, out2⟩ := s2
              simp only [Option.map_some']
              rw [ihm rest.size hrest rest le_rfl k]
              rw [show dp2 - k + k = dp2 from by ring]
        | loop c els nt =>
          cases fuel with
          | zero =>
            simp only [shiftList, shiftCommand, ASTList.append, execList]
            rw [show dp0 + (c + k) = dp0 + k + c from by ring]
            by_cases hc : tape0 (dp0 + k + c) = 0
            · rw [if_pos hc, if_pos hc]
              exact ihm rest.size hrest rest le_rfl k ⟨dp0, tape0, in0, out0⟩
            · simp [hc]
          | succ f =>
            simp only [shiftList, shiftCommand, ASTList.append, execList]
            rw [show dp0 + (c + k) = dp0 + k + c from by ring]
            by_cases hc : tape0 (dp0 + k + c) = 0
            · rw [if_pos hc, if_pos hc]
              exact ihm rest.size hrest rest le_rfl k ⟨dp0, tape0, in0, out0⟩
            · rw [if_neg hc, if_neg hc]
              rw [execList_shiftList (f + 1) els k ⟨dp0, tape0, in0, out0⟩]
              rcases hEls : execList (f + 1) els
                  { dp := dp0 + k, tape := tape0, input := in0, output := out0 } with _ | s2
              · simp
              · obtain ⟨dp2, tape2, in2, out2⟩ := s2
                simp only [Option.map_some']
                have hre := ihf f (Nat.lt_succ_self f) (.cons (.loop c els nt) rest) k
                  { dp := dp2 - k, tape := tape2, input := in2, output := out2 }
                simp only [shiftList, shiftCommand, ASTList.append] at hre
                rw [hre]
                rw [show dp2 - k + k = dp2 from by ring]
        | shiftLoop c k2 nt =>
          cases fuel with
          | zero =>
            simp only [shiftList, shiftCommand, ASTList.append, execList]
            rw [show dp0 + (c + k) = dp0 + k + c from by ring]
            by_cases hc : tape0 (dp0 + k + c) = 0
            · rw [if_pos hc, if_pos hc]
              exact ihm rest.size hrest rest le_rfl k ⟨dp0, tape0, in0, out0⟩
            · simp [hc]
          | succ f =>
            simp only [shiftList, shiftCommand, ASTList.append, execList]
            rw [show dp0 + (c + k) = dp0 + k + c from by ring]
            by_cases hc : tape0 (dp0 + k + c) = 0
            · rw [if_pos hc, if_pos hc]
              exact ihm rest.size hrest rest le_rfl k ⟨dp0, tape0, in0, out0⟩
            · rw [if_neg hc, if_neg hc]
              have hre := ihf f (Nat.lt_succ_self f) (.cons (.shiftLoop c k2 nt) rest) k
                { dp := dp0 + k2, tape := tape0, input := in0, output := out0 }
              simp only [shiftList, shiftCommand, ASTList.append] at hre
              rw [hre]
              rw [show dp0 + k2 + k = dp0 + k + k2 from by ring]

/-- C5 amended. When the reorder pass moves a `Shift(k)` past a non-`Shift`
node, it rewrites each Δ offset field of that node to Δ + k (not Δ − k),
and the swap together with this rewrite preserves the semantics of the
two-node sequence exactly, for every fuel bound and start state. -/
theorem shift_swap_rewrites_plus_k_and_preserves_semantics (k : Int) (b : AST)
    (hb : isShiftB b = false) :
    sortCommandsStep (.cons (.shiftDataPtr k) (.cons b .nil)) =
      (.cons (shiftCommand b k) (.cons (.shiftDataPtr k) .nil), 1) ∧
    (∀ kind d, shiftCommand (.modData kind d) k = .modData kind (d + k)) ∧
    ∀ (fuel : Nat) (s : ExecState),
      execList fuel (.cons (.shiftDataPtr k) (.cons b .nil)) s =
        execList fuel (.cons (shiftCommand b k) (.cons (.shiftDataPtr k) .nil)) s := by
  refine ⟨?_, fun kind d => rfl, ?_⟩
  · cases b <;> simp_all [sortCommandsStep, bubbleGo, maybeSwap, isShiftB]
  · intro fuel s
    have hB := execList_shift_absorb fuel (.cons b .nil) k s
    have hshape : (shiftList (.cons b .nil) k).append (.cons (.shiftDataPtr k) .nil) =
        .cons (shiftCommand b k) (.cons (.shiftDataPtr k) .nil) := rfl
    rw [hshape] at hB
    rw [hB]
    simp only [execList]

/-- Witness for the amended C5 at `k = 1`, `b = Mod(Add 1, 0)`, fuel 1 and
the all-zero start state. -/
theorem shift_swap_semantics_witness :
    sortCommandsStep (.cons (.shiftDataPtr 1) (.cons (.modData (.addData 1) 0) .nil)) =
      (.cons (shiftCommand (.modData (.addData 1) 0) 1)
        (.cons (.shiftDataPtr 1) .nil), 1) ∧
    execList 1 (.cons (.shiftDataPtr 1) (.cons (.modData (.addData 1) 0) .nil))
        ⟨0, fun _ => 0, [], []⟩ =
      execList 1 (.cons (shiftCommand (.modData (.addData 1) 0) 1)
        (.cons (.shiftDataPtr 1) .nil)) ⟨0, fun _ => 0, [], []⟩ := by
  have h := shift_swap_rewrites_plus_k_and_preserves_semantics 1 (.modData (.addData 1) 0) rfl
  exact ⟨h.1, h.2.2 1 ⟨0, fun _ => 0, [], []⟩⟩

/-! ## C6 amended: passes that preserve absence of `Mod(Add(0))` -/

theorem noAdd0_append : ∀ (l1 l2 : ASTList),
    noAdd0 (l1.append l2) = (noAdd0 l1 && noAdd0 l2) := by
  suffices h : ∀ (n : Nat) (l1 : ASTList), l1.length = n → ∀ l2,
      noAdd0 (l1.append l2) = (noAdd0 l1 && noAdd0 l2) by
    intro l1 l2
    exact h l1.length l1 rfl l2
  intro n
  induction n with
  | zero =>
    intro l1 hl l2
    cases l1 with
    | nil => simp [ASTList.append, noAdd0]
    | cons a rest => simp [ASTList.length] at hl
  | succ k ih =>
    intro l1 hl l2
    cases l1 with
    | nil => simp [ASTList.length] at hl
    | cons a rest =>
      simp only [ASTList.length] at hl
      simp [ASTList.append, noAdd0, ih rest (by omega) l2, Bool.and_assoc]

theorem noAdd0_shift : ∀ (m : Nat),
    (∀ a : AST, a.size ≤ m → ∀ k, noAdd0One (shiftCommand a k) = noAdd0One a) ∧
    (∀ l : ASTList, l.size ≤ m → ∀ k, noAdd0 (shiftList l k) = noAdd0 l) := by
  intro m
  induction m using Nat.strong_induction_on with
  | _ m ih =>
    constructor
    · intro a hsz k
      cases a with
      | loop c els nt =>
        have hn : 1 ≤ m := le_trans (AST.size_pos _) hsz
        have hels : els.size ≤ m - 1 := by
          have := els_size_lt_loop c els nt
          omega
        simp [shiftCommand, noAdd0One, (ih (m - 1) (by omega)).2 els hels k]
      | ifNonZero c els =>
        have hn : 1 ≤ m := le_trans (AST.size_pos _) hsz
        have hels : els.size ≤ m - 1 := by
          have := els_size_lt_ifNonZero c els
          omega
        simp [shiftCommand, noAdd0One, (ih (m - 1) (by omega)).2 els hels k]
      | modData kind d => cases kind <;> simp [shiftCommand, noAdd0One]
      | shiftDataPtr a => simp [shiftCommand, noAdd0One]
      | combineData s t mu => simp [shiftCommand, noAdd0One]
      | readByte d => simp [shiftCommand, noAdd0One]
      | writeByte d => simp [shiftCommand, noAdd0One]
      | writeConst b => simp [shiftCommand, noAdd0One]
      | infiniteLoop => simp [shiftCommand, noAdd0One]
      | shiftLoop c s nt => simp [shiftCommand, noAdd0One]
      | assertEquals d v => simp [shiftCommand, noAdd0One]
    · intro l hsz k
      cases l with
      | nil => simp [shiftList, noAdd0]
      | cons a rest =>
        have hn : 1 ≤ m := by
          have h1 := AST.size_pos a
          have h2 := ASTList.size_lt_cons a rest
          omega
        have ha : a.size ≤ m - 1 := by
          have := AST.size_lt_cons_head a rest
          have h2 := ASTList.size_lt_cons a rest
          simp only [ASTList.size] at hsz
          omega
        have hr : rest.size ≤ m - 1 := by
          have := AST.size_pos a
          simp only [ASTList.size] at hsz
          omega
        simp [shiftList, noAdd0, (ih (m - 1) (by omega)).1 a ha k,
          (ih (m - 1) (by omega)).2 rest hr k]

theorem maybeSwap_cases (a b : AST) :
    ((maybeSwap a b).1 = a ∧ (maybeSwap a b).2.1 = b) ∨
    ((maybeSwap a b).1 = b ∧ (maybeSwap a b).2.1 = a) ∨
    (∃ k, a = .shiftDataPtr k ∧ (maybeSwap a b).1 = shiftCommand b k ∧
      (maybeSwap a b).2.1 = a) := by
  cases a <;> cases b <;> simp [maybeSwap, isShiftB] <;> split_ifs <;> simp

theorem maybeSwap_noAdd0 (a b : AST) (ha : noAdd0One a = true) (hb : noAdd0One b = true) :
    noAdd0One (maybeSwap a b).1 = true ∧ noAdd0One (maybeSwap a b).2.1 = true := by
  rcases maybeSwap_cases a b with ⟨h1, h2⟩ | ⟨h1, h2⟩ | ⟨k, _, h1, h2⟩
  · rw [h1, h2]; exact ⟨ha, hb⟩
  · rw [h1, h2]; exact ⟨hb, ha⟩
  · rw [h1, h2]
    refine ⟨?_, ha⟩
    rw [(noAdd0_shift b.size).1 b le_rfl k]
    exact hb

theorem bubbleGo_noAdd0 : ∀ (l : ASTList) (prev : AST),
    noAdd0One prev = true → noAdd0 l = true → noAdd0 (bubbleGo prev l).1 = true := by
  suffices h : ∀ (n : Nat) (l : ASTList), l.length = n → ∀ prev : AST,
      noAdd0One prev = true → noAdd0 l = true → noAdd0 (bubbleGo prev l).1 = true by
    intro l prev hp hl
    exact h l.length l rfl prev hp hl
  intro n
  induction n with
  | zero =>
    intro l hn prev hp _
    cases l with
    | nil => simp [bubbleGo, noAdd0, hp]
    | cons b rest => simp [ASTList.length] at hn
  | succ k ihn =>
    intro l hn prev hp hl
    cases l with
    | nil => simp [ASTList.length] at hn
    | cons b rest =>
    simp only [ASTList.length] at hn
    have ih : ∀ prev : AST, noAdd0One prev = true → noAdd0 rest = true →
        noAdd0 (bubbleGo prev rest).1 = true := fun p hp2 hr => ihn rest (by omega) p hp2 hr
    simp only [noAdd0, Bool.and_eq_true] at hl
    obtain ⟨hb, hrest⟩ := hl
    obtain ⟨h1, h2⟩ := maybeSwap_noAdd0 prev b hp hb
    rcases hms : maybeSwap prev b with ⟨x, y, c⟩
    rw [hms] at h1 h2
    simp only at h1 h2
    have hy := ih y h2 hrest
    rcases hbg : bubbleGo y rest with ⟨out, c2⟩
    rw [hbg] at hy
    simp only at hy
    simp only [bubbleGo]
    rw [hms, hbg]
    simp [noAdd0, h1, hy]

theorem sortCommandsStep_noAdd0 (l : ASTList) (h : noAdd0 l = true) :
    noAdd0 (sortCommandsStep l).1 = true := by
  cases l with
  | nil => simpa [sortCommandsStep] using h
  | cons a rest =>
    simp only [noAdd0, Bool.and_eq_true] at h
    simpa [sortCommandsStep] using bubbleGo_noAdd0 rest a h.1 h.2

theorem take_noAdd0 : ∀ (n : Nat) (l : ASTList), noAdd0 l = true →
    noAdd0 (ASTList.take n l) = true := by
  intro n
  induction n with
  | zero => intro l _; simp [ASTList.take, noAdd0]
  | succ k ih =>
    intro l h
    cases l with
    | nil => simp [ASTList.take, noAdd0]
    | cons a rest =>
      simp only [noAdd0, Bool.and_eq_true] at h
      simp [ASTList.take, noAdd0, h.1, ih rest h.2]

theorem drop_noAdd0 : ∀ (n : Nat) (l : ASTList), noAdd0 l = true →
    noAdd0 (ASTList.drop n l) = true := by
  intro n
  induction n with
  | zero => intro l h; simpa [ASTList.drop] using h
  | succ k ih =>
    intro l h
    cases l with
    | nil => simp [ASTList.drop, noAdd0]
    | cons a rest =>
      simp only [noAdd0, Bool.and_eq_true] at h
      simpa [ASTList.drop] using ih rest h.2

theorem sortLoop_noAdd0 : ∀ (n : Nat) (l : ASTList) (acc : Nat), noAdd0 l = true →
    noAdd0 (sortLoop l n acc).1 = true := by
  intro n
  induction n using Nat.strong_induction_on with
  | _ n ih =>
    intro l acc h
    match n with
    | 0 => simpa [sortLoop] using h
    | 1 => simpa [sortLoop] using h
    | n + 2 =>
      have hpre := sortCommandsStep_noAdd0 (l.take (n + 2)) (take_noAdd0 (n + 2) l h)
      rcases hstep : sortCommandsStep (l.take (n + 2)) with ⟨pre, localSwaps⟩
      rw [hstep] at hpre
      simp only at hpre
      have hcmds2 : noAdd0 (pre.append (l.drop (n + 2))) = true := by
        rw [noAdd0_append]
        simp [hpre, drop_noAdd0 (n + 2) l h]
      by_cases hz : localSwaps = 0
      · simp [sortLoop, hstep, hz, hcmds2]
      · simp only [sortLoop, hstep]
        rw [if_neg hz]
        exact ih (n + 1) (by omega) _ _ hcmds2

theorem sortInner_noAdd0 : ∀ (m : Nat),
    (∀ a : AST, a.size ≤ m → noAdd0One a = true → noAdd0One (sortInnerOne a) = true) ∧
    (∀ l : ASTList, l.size ≤ m → noAdd0 l = true → noAdd0 (sortInner l) = true) := by
  intro m
  induction m using Nat.strong_induction_on with
  | _ m ih =>
    constructor
    · intro a hsz ha
      cases a with
      | loop c els nt =>
        have hn : 1 ≤ m := le_trans (AST.size_pos _) hsz
        have hels : els.size ≤ m - 1 := by
          have := els_size_lt_loop c els nt
          omega
        simp only [noAdd0One] at ha
        have h1 := (ih (m - 1) (by omega)).2 els hels ha
        have h2 := sortLoop_noAdd0 (sortInner els).length (sortInner els) 0 h1
        simp [sortInnerOne, noAdd0One, h2]
      | ifNonZero c els =>
        have hn : 1 ≤ m := le_trans (AST.size_pos _) hsz
        have hels : els.size ≤ m - 1 := by
          have := els_size_lt_ifNonZero c els
          omega
        simp only [noAdd0One] at ha
        have h1 := (ih (m - 1) (by omega)).2 els hels ha
        have h2 := sortLoop_noAdd0 (sortInner els).length (sortInner els) 0 h1
        simp [sortInnerOne, noAdd0One, h2]
      | modData kind d => simpa [sortInnerOne] using ha
      | shiftDataPtr a2 => simpa [sortInnerOne] using ha
      | combineData s t mu => simpa [sortInnerOne] using ha
      | readByte d => simpa [sortInnerOne] using ha
      | writeByte d => simpa [sortInnerOne] using ha
      | writeConst b2 => simpa [sortInnerOne] using ha
      | infiniteLoop => simpa [sortInnerOne] using ha
      | shiftLoop c s nt => simpa [sortInnerOne] using ha
      | assertEquals d v => simpa [sortInnerOne] using ha
    · intro l hsz hl
      cases l with
      | nil => simp [sortInner, noAdd0]
      | cons a rest =>
        have hn : 1 ≤ m := by
          have h1 := AST.size_pos a
          have h2 := ASTList.size_lt_cons a rest
          omega
        have ha2 : a.size ≤ m - 1 := by
          have := AST.size_lt_cons_head a rest
          simp only [ASTList.size] at hsz
          omega
        have hr : rest.size ≤ m - 1 := by
          have := AST.size_pos a
          simp only [ASTList.size] at hsz
          omega
        simp only [noAdd0, Bool.and_eq_true] at hl
        simp [sortInner, noAdd0, (ih (m - 1) (by omega)).1 a ha2 hl.1,
          (ih (m - 1) (by omega)).2 rest hr hl.2]

theorem sortCommands_noAdd0 (cmds : ASTList) (h : noAdd0 cmds = true) :
    noAdd0 (sortCommands cmds).1 = true := by
  have h1 := (sortInner_noAdd0 cmds.size).2 cmds le_rfl h
  simpa [sortCommands] using
    sortLoop_noAdd0 (sortInner cmds).length (sortInner cmds) 0 h1

theorem noAdd0_snoc (l : ASTList) (a : AST) :
    noAdd0 (l.snoc a) = (noAdd0 l && noAdd0One a) := by
  simp [ASTList.snoc, noAdd0_append, noAdd0]

theorem alSet_mem {α : Type} (k : Int) (v : α) :
    ∀ (m : List (Int × α)) (kv : Int × α), kv ∈ alSet k v m → kv = (k, v) ∨ kv ∈ m := by
  intro m
  induction m with
  | nil => intro kv h; simp [alSet] at h; simp [h]
  | cons p rest ih =>
    intro kv h
    obtain ⟨k2, w⟩ := p
    simp only [alSet] at h
    by_cases hk : k2 = k
    · rw [if_pos hk] at h
      rcases List.mem_cons.mp h with h2 | h2
      · exact Or.inl h2
      · exact Or.inr (List.mem_cons.mpr (Or.inr h2))
    · rw [if_neg hk] at h
      rcases List.mem_cons.mp h with h2 | h2
      · exact Or.inr (List.mem_cons.mpr (Or.inl h2))
      · rcases ih kv h2 with h3 | h3
        · exact Or.inl h3
        · exact Or.inr (List.mem_cons.mpr (Or.inr h3))

theorem alErase_mem {α : Type} (k : Int) :
    ∀ (m : List (Int × α)) (kv : Int × α), kv ∈ alErase k m → kv ∈ m := by
  intro m
  induction m with
  | nil => intro kv h; simp [alErase] at h
  | cons p rest ih =>
    intro kv h
    obtain ⟨k2, w⟩ := p
    simp only [alErase] at h
    by_cases hk : k2 = k
    · rw [if_pos hk] at h
      exact List.mem_cons.mpr (Or.inr (ih kv h))
    · rw [if_neg hk] at h
      rcases List.mem_cons.mp h with h2 | h2
      · exact List.mem_cons.mpr (Or.inl h2)
      · exact List.mem_cons.mpr (Or.inr (ih kv h2))

theorem odUpdate_values (m : OffsetMap) (d : Int) (kind : DatamodKind)
    (h : ∀ kv ∈ m, kv.2 ≠ DatamodKind.addData 0) :
    ∀ kv ∈ odUpdate m d kind, kv.2 ≠ DatamodKind.addData 0 := by
  intro kv hkv
  simp only [odUpdate] at hkv
  by_cases hz : collapseKinds ((alLookup d m).getD (.addData 0)) kind = .addData 0
  · rw [if_pos hz] at hkv
    exact h kv (alErase_mem d m kv hkv)
  · rw [if_neg hz] at hkv
    rcases alSet_mem d _ m kv hkv with h2 | h2
    · rw [h2]
      exact hz
    · exact h kv h2

theorem onlyDataGo_values :
    ∀ (l : ASTList) (m : OffsetMap) (err : Option NonConstResult) (offsets : OffsetMap),
      (∀ kv ∈ m, kv.2 ≠ DatamodKind.addData 0) →
      onlyDataGo l m err = .ok offsets →
      ∀ kv ∈ offsets, kv.2 ≠ DatamodKind.addData 0 := by
  suffices hh : ∀ (n : Nat) (l : ASTList), l.length = n →
      ∀ (m : OffsetMap) (err : Option NonConstResult) (offsets : OffsetMap),
        (∀ kv ∈ m, kv.2 ≠ DatamodKind.addData 0) →
        onlyDataGo l m err = .ok offsets →
        ∀ kv ∈ offsets, kv.2 ≠ DatamodKind.addData 0 by
    intro l
    exact hh l.length l rfl
  intro n
  induction n with
  | zero =>
    intro l hl m err offsets hv h
    cases l with
    | nil =>
      cases err with
      | none =>
        simp only [onlyDataGo] at h
        cases h
        exact hv
      | some e => simp [onlyDataGo] at h
    | cons a rest => simp [ASTList.length] at hl
  | succ k ih =>
    intro l hl m err offsets hv h
    cases l with
    | nil => simp [ASTList.length] at hl
    | cons cmd rest =>
      simp only [ASTList.length] at hl
      have hrl : rest.length = k := by omega
      cases cmd with
      | modData kind d =>
        exact ih rest hrl _ _ offsets (odUpdate_values m d kind hv) h
      | combineData s t mu => exact ih rest hrl _ _ offsets hv h
      | loop c els nt => exact ih rest hrl _ _ offsets hv h
      | shiftLoop c s nt => exact ih rest hrl _ _ offsets hv h
      | ifNonZero c els => exact ih rest hrl _ _ offsets hv h
      | shiftDataPtr a => exact ih rest hrl _ _ offsets hv h
      | readByte d => exact ih rest hrl _ _ offsets hv h
      | writeByte d => exact ih rest hrl _ _ offsets hv h
      | writeConst b => exact ih rest hrl _ _ offsets hv h
      | infiniteLoop => exact ih rest hrl _ _ offsets hv h
      | assertEquals d v => exact ih rest hrl _ _ offsets hv h

theorem onlyData_values (cmds : ASTList) (offsets : OffsetMap)
    (h : onlyData cmds = .ok offsets) :
    ∀ kv ∈ offsets, kv.2 ≠ DatamodKind.addData 0 :=
  onlyDataGo_values cmds [] none offsets (by intro kv hkv; simp at hkv) h

theorem constLoopAdds_noAdd0 (cond : Int) (reps : Nat) :
    ∀ m : OffsetMap, noAdd0 (constLoopAdds cond reps m) = true := by
  intro m
  induction m with
  | nil => simp [constLoopAdds, noAdd0]
  | cons p rest ih =>
    obtain ⟨tdo, kind⟩ := p
    cases kind <;> simp [constLoopAdds, noAdd0, noAdd0One, ih]

theorem constLoopSetAdds_noAdd0 :
    ∀ m : OffsetMap, (∀ kv ∈ m, kv.2 ≠ DatamodKind.addData 0) →
      noAdd0 (constLoopSetAdds m) = true := by
  intro m
  induction m with
  | nil => intro _; simp [constLoopSetAdds, noAdd0]
  | cons p rest ih =>
    intro hv
    obtain ⟨tdo, kind⟩ := p
    have htail : ∀ kv ∈ rest, kv.2 ≠ DatamodKind.addData 0 :=
      fun kv hkv => hv kv (List.mem_cons.mpr (Or.inr hkv))
    have hhead : kind ≠ DatamodKind.addData 0 := hv (tdo, kind) (by simp)
    cases kind with
    | setData a => simp [constLoopSetAdds, noAdd0, noAdd0One, ih htail]
    | addData a =>
      have : a ≠ 0 := fun hz => hhead (by rw [hz])
      simp [constLoopSetAdds, noAdd0, noAdd0One, ih htail, this]

theorem clrLoop_noAdd0 (cond : Int) (els : ASTList) (nt : Bool) (add : ASTList) (n : Nat)
    (hels : noAdd0 els = true) (h : clrLoop cond els nt = some (add, n)) :
    noAdd0 add = true := by
  rcases hod : onlyData els with e | offsets
  · -- error branch of only_data
    simp only [clrLoop, hod] at h
    cases els with
    | nil =>
      cases h
      simp [noAdd0, noAdd0One]
    | cons a rest =>
      cases a with
      | shiftDataPtr amt =>
        cases rest with
        | nil =>
          cases h
          simp [noAdd0, noAdd0One]
        | cons b rest2 =>
          cases h
          simpa [noAdd0, noAdd0One] using hels
      | loop c2 els2 nt2 =>
        cases rest with
        | nil => cases h; simp [noAdd0]
        | cons b rest2 => cases h; simpa [noAdd0, noAdd0One] using hels
      | ifNonZero c2 els2 =>
        cases rest with
        | nil => cases h; simp [noAdd0]
        | cons b rest2 => cases h; simpa [noAdd0, noAdd0One] using hels
      | infiniteLoop =>
        cases rest with
        | nil => cases h; simp [noAdd0]
        | cons b rest2 => cases h; simpa [noAdd0, noAdd0One] using hels
      | modData kind d =>
        cases rest with
        | nil => cases h; simp [noAdd0]
        | cons b rest2 =>
          cases h
          cases kind <;> simpa [noAdd0, noAdd0One] using hels
      | combineData s t mu =>
        cases rest with
        | nil => cases h; simp [noAdd0]
        | cons b rest2 => cases h; simpa [noAdd0, noAdd0One] using hels
      | readByte d =>
        cases rest with
        | nil => cases h; simp [noAdd0]
        | cons b rest2 => cases h; simpa [noAdd0, noAdd0One] using hels
      | writeByte d =>
        cases rest with
        | nil => cases h; simp [noAdd0]
        | cons b rest2 => cases h; simpa [noAdd0, noAdd0One] using hels
      | writeConst b2 =>
        cases rest with
        | nil => cases h; simp [noAdd0]
        | cons b rest2 => cases h; simpa [noAdd0, noAdd0One] using hels
      | shiftLoop c2 s2 nt2 =>
        cases rest with
        | nil => cases h; simp [noAdd0]
        | cons b rest2 => cases h; simpa [noAdd0, noAdd0One] using hels
      | assertEquals d v =>
        cases rest with
        | nil => cases h; simp [noAdd0]
        | cons b rest2 => cases h; simpa [noAdd0, noAdd0One] using hels
  · -- ok branch
    have hvals := onlyData_values els offsets hod
    simp only [clrLoop, hod] at h
    have hpre : noAdd0 (if (alLookup cond offsets).isSome then ASTList.nil
        else if nt then ASTList.cons .infiniteLoop .nil
        else ASTList.cons (.ifNonZero cond (.cons .infiniteLoop .nil)) .nil) = true := by
      split_ifs <;> simp [noAdd0, noAdd0One]
    by_cases hlen : offsets.length = 1
    · rw [if_pos hlen] at h
      cases h
      rw [noAdd0_append]
      simp [hpre, noAdd0, noAdd0One]
    · rw [if_neg hlen] at h
      rcases hrm : omRemove cond offsets with _ | ⟨kind, offsets2⟩
      · rw [hrm] at h
        cases h
      · rw [hrm] at h
        have hvals2 : ∀ kv ∈ offsets2, kv.2 ≠ DatamodKind.addData 0 := by
          intro kv hkv
          simp only [omRemove] at hrm
          rcases hlk : alLookup cond offsets with _ | v
          · rw [hlk] at hrm; cases hrm
          · rw [hlk] at hrm
            cases hrm
            exact hvals kv (alErase_mem cond offsets kv hkv)
        cases kind with
        | addData amount =>
          simp only at h
          by_cases hamt : amount ≠ 1 ∧ amount ≠ u8Max
          · rw [if_pos hamt] at h
            cases h
            rw [noAdd0_append]
            simp [hpre, noAdd0, noAdd0One, hels]
          · rw [if_neg hamt] at h
            have hadds : noAdd0 ((constLoopAdds cond
                (if amount = u8Max then 1 else u8Max) offsets2).snoc
                  (.modData (.setData 0) cond)) = true := by
              rw [noAdd0_snoc]
              simp [constLoopAdds_noAdd0, noAdd0One]
            by_cases hnt : nt
            · rw [if_pos hnt] at h
              cases h
              rw [noAdd0_append]
              simp [hpre, hadds]
            · rw [if_neg hnt] at h
              cases h
              rw [noAdd0_append]
              simp only [noAdd0, noAdd0One]
              simp [hpre, hadds]
        | setData amount =>
          simp only at h
          have hadds : noAdd0 (if amount = 0
              then (constLoopSetAdds offsets2).snoc (.modData (.setData 0) cond)
              else ASTList.cons .infiniteLoop .nil) = true := by
            split_ifs
            · rw [noAdd0_snoc]
              simp [constLoopSetAdds_noAdd0 offsets2 hvals2, noAdd0One]
            · simp [noAdd0, noAdd0One]
          by_cases hnt : nt
          · rw [if_pos hnt] at h
            cases h
            rw [noAdd0_append]
            simp [hpre, hadds]
          · rw [if_neg hnt] at h
            cases h
            rw [noAdd0_append]
            simp only [noAdd0, noAdd0One]
            simp [hpre, hadds]

theorem clrMain_noAdd0 :
    ∀ (l : ASTList) (out : ASTList) (n : Nat),
      noAdd0 l = true → clrMain l = some (out, n) → noAdd0 out = true := by
  suffices hh : ∀ (m : Nat) (l : ASTList), l.length = m → ∀ (out : ASTList) (n : Nat),
      noAdd0 l = true → clrMain l = some (out, n) → noAdd0 out = true by
    intro l
    exact hh l.length l rfl
  intro m
  induction m with
  | zero =>
    intro l hl out n _ h
    cases l with
    | nil =>
      simp only [clrMain] at h
      cases h
      simp [noAdd0]
    | cons a rest => simp [ASTList.length] at hl
  | succ k ih =>
    intro l hl out n hno h
    cases l with
    | nil => simp [ASTList.length] at hl
    | cons cmd rest =>
      simp only [ASTList.length] at hl
      have hrl : rest.length = k := by omega
      simp only [noAdd0, Bool.and_eq_true] at hno
      cases cmd with
      | loop c els nt =>
        simp only [clrMain] at h
        rcases hcl : clrLoop c els nt with _ | ⟨add, n1⟩
        · rw [hcl] at h; cases h
        · rw [hcl] at h
          try simp only at h
          rcases hcm : clrMain rest with _ | ⟨rest2, n2⟩
          · rw [hcm] at h; cases h
          · rw [hcm] at h
            try simp only at h
            cases h
            rw [noAdd0_append]
            have h1 := clrLoop_noAdd0 c els nt add n1 (by simpa [noAdd0One] using hno.1) hcl
            have h2 := ih rest hrl rest2 n2 hno.2 hcm
            simp [h1, h2]
      | modData kind d =>
        simp only [clrMain] at h
        rcases hcm : clrMain rest with _ | ⟨rest2, n2⟩
        · rw [hcm] at h; cases h
        · rw [hcm] at h
          try simp only at h
          cases h
          simp [noAdd0, hno.1, ih rest hrl rest2 _ hno.2 hcm]
      | ifNonZero c els =>
        simp only [clrMain] at h
        rcases hcm : clrMain rest with _ | ⟨rest2, n2⟩
        · rw [hcm] at h; cases h
        · rw [hcm] at h
          try simp only at h
          cases h
          simp [noAdd0, hno.1, ih rest hrl rest2 _ hno.2 hcm]
      | shiftDataPtr a =>
        simp only [clrMain] at h
        rcases hcm : clrMain rest with _ | ⟨rest2, n2⟩
        · rw [hcm] at h; cases h
        · rw [hcm] at h
          try simp only at h
          cases h
          simp [noAdd0, hno.1, ih rest hrl rest2 _ hno.2 hcm]
      | combineData s t mu =>
        simp only [clrMain] at h
        rcases hcm : clrMain rest with _ | ⟨rest2, n2⟩
        · rw [hcm] at h; cases h
        · rw [hcm] at h
          try simp only at h
          cases h
          simp [noAdd0, hno.1, ih rest hrl rest2 _ hno.2 hcm]
      | readByte d =>
        simp only [clrMain] at h
        rcases hcm : clrMain rest with _ | ⟨rest2, n2⟩
        · rw [hcm] at h; cases h
        · rw [hcm] at h
          try simp only at h
          cases h
          simp [noAdd0, hno.1, ih rest hrl rest2 _ hno.2 hcm]
      | writeByte d =>
        simp only [clrMain] at h
        rcases hcm : clrMain rest with _ | ⟨rest2, n2⟩
        · rw [hcm] at h; cases h
        · rw [hcm] at h
          try simp only at h
          cases h
          simp [noAdd0, hno.1, ih rest hrl rest2 _ hno.2 hcm]
      | writeConst b =>
        simp only [clrMain] at h
        rcases hcm : clrMain rest with _ | ⟨rest2, n2⟩
        · rw [hcm] at h; cases h
        · rw [hcm] at h
          try simp only at h
          cases h
          simp [noAdd0, hno.1, ih rest hrl rest2 _ hno.2 hcm]
      | infiniteLoop =>
        simp only [clrMain] at h
        rcases hcm : clrMain rest with _ | ⟨rest2, n2⟩
        · rw [hcm] at h; cases h
        · rw [hcm] at h
          try simp only at h
          cases h
          simp [noAdd0, hno.1, ih rest hrl rest2 _ hno.2 hcm]
      | shiftLoop c s nt =>
        simp only [clrMain] at h
        rcases hcm : clrMain rest with _ | ⟨rest2, n2⟩
        · rw [hcm] at h; cases h
        · rw [hcm] at h
          try simp only at h
          cases h
          simp [noAdd0, hno.1, ih rest hrl rest2 _ hno.2 hcm]
      | assertEquals d v =>
        simp only [clrMain] at h
        rcases hcm : clrMain rest with _ | ⟨rest2, n2⟩
        · rw [hcm] at h; cases h
        · rw [hcm] at h
          try simp only at h
          cases h
          simp [noAdd0, hno.1, ih rest hrl rest2 _ hno.2 hcm]

theorem clrPre_noAdd0 : ∀ (m : Nat),
    (∀ (a : AST), a.size ≤ m → ∀ (a2 : AST) (n : Nat), noAdd0One a = true →
      clrPreOne a = some (a2, n) → noAdd0One a2 = true) ∧
    (∀ (l : ASTList), l.size ≤ m → ∀ (out : ASTList) (n : Nat), noAdd0 l = true →
      clrPre l = some (out, n) → noAdd0 out = true) := by
  intro m
  induction m using Nat.strong_induction_on with
  | _ m ih =>
    constructor
    · intro a hsz a2 n ha h
      cases a with
      | loop c els nt =>
        have hn : 1 ≤ m := le_trans (AST.size_pos _) hsz
        have hels : els.size ≤ m - 1 := by
          have := els_size_lt_loop c els nt
          omega
        simp only [clrPreOne] at h
        rcases hp : clrPre els with _ | ⟨e1, n1⟩
        · rw [hp] at h; cases h
        · rw [hp] at h
          simp only at h
          rcases hm2 : clrMain e1 with _ | ⟨e2, n2⟩
          · rw [hm2] at h; cases h
          · rw [hm2] at h
            simp only at h
            cases h
            have h1 := (ih (m - 1) (by omega)).2 els hels e1 n1
              (by simpa [noAdd0One] using ha) hp
            have h2 := clrMain_noAdd0 e1 e2 n2 h1 hm2
            simpa [noAdd0One] using h2
      | ifNonZero c els => simp only [clrPreOne] at h; cases h; exact ha
      | modData kind d => simp only [clrPreOne] at h; cases h; exact ha
      | shiftDataPtr a3 => simp only [clrPreOne] at h; cases h; exact ha
      | combineData s t mu => simp only [clrPreOne] at h; cases h; exact ha
      | readByte d => simp only [clrPreOne] at h; cases h; exact ha
      | writeByte d => simp only [clrPreOne] at h; cases h; exact ha
      | writeConst b => simp only [clrPreOne] at h; cases h; exact ha
      | infiniteLoop => simp only [clrPreOne] at h; cases h; exact ha
      | shiftLoop c s nt => simp only [clrPreOne] at h; cases h; exact ha
      | assertEquals d v => simp only [clrPreOne] at h; cases h; exact ha
    · intro l hsz out n hl h
      cases l with
      | nil =>
        simp only [clrPre] at h
        cases h
        simp [noAdd0]
      | cons cmd rest =>
        have hn : 1 ≤ m := by
          have h1 := AST.size_pos cmd
          have h2 := ASTList.size_lt_cons cmd rest
          omega
        have hc : cmd.size ≤ m - 1 := by
          have := AST.size_lt_cons_head cmd rest
          simp only [ASTList.size] at hsz
          omega
        have hr : rest.size ≤ m - 1 := by
          have := AST.size_pos cmd
          simp only [ASTList.size] at hsz
          omega
        simp only [noAdd0, Bool.and_eq_true] at hl
        simp only [clrPre] at h
        rcases h1 : clrPreOne cmd with _ | ⟨a2, n1⟩
        · rw [h1] at h; cases h
        · rw [h1] at h
          try simp only at h
          rcases h2 : clrPre rest with _ | ⟨r2, n2⟩
          · rw [h2] at h; cases h
          · rw [h2] at h
            try simp only at h
            cases h
            have ha := (ih (m - 1) (by omega)).1 cmd hc a2 _ hl.1 h1
            have hb := (ih (m - 1) (by omega)).2 rest hr r2 _ hl.2 h2
            simp [noAdd0, ha, hb]

theorem constLoopRemove_noAdd0 (cmds : ASTList) (out : ASTList) (n : Nat)
    (hno : noAdd0 cmds = true) (h : constLoopRemove cmds = some (out, n)) :
    noAdd0 out = true := by
  simp only [constLoopRemove] at h
  rcases h1 : clrPre cmds with _ | ⟨c1, n1⟩
  · rw [h1] at h; cases h
  · rw [h1] at h
    try simp only at h
    rcases h2 : clrMain c1 with _ | ⟨c2, n2⟩
    · rw [h2] at h; cases h
    · rw [h2] at h
      try simp only at h
      rw [Option.some.injEq, Prod.mk.injEq] at h
      rw [← h.1]
      exact clrMain_noAdd0 c1 c2 _
        ((clrPre_noAdd0 cmds.size).2 cmds le_rfl c1 n1 hno h1) h2

theorem osl_noAdd0 : ∀ (m : Nat),
    (∀ (cmd : AST), cmd.size ≤ m → ∀ (st : SimState), noAdd0One cmd = true →
      noAdd0 (oslOne cmd st).1 = true) ∧
    (∀ (l : ASTList), l.size ≤ m → ∀ (st : SimState), noAdd0 l = true →
      noAdd0 (oslList l st).1 = true) := by
  intro m
  induction m using Nat.strong_induction_on with
  | _ m ih =>
    constructor
    · intro cmd hsz st ha
      cases cmd with
      | loop c els nt =>
        have hn : 1 ≤ m := le_trans (AST.size_pos _) hsz
        have hsz2 : els.size ≤ m - 1 := by
          have := els_size_lt_loop c els nt
          omega
        have hb : noAdd0 els = true := by simpa [noAdd0One] using ha
        rcases holl : oslList els ((SimState.new .unknown).setData c .unknownNonzero)
          with ⟨els2, innerRem, innerSt⟩
        have hels2 : noAdd0 els2 = true := by
          have h2 := (ih (m - 1) (by omega)).2 els hsz2
            ((SimState.new .unknown).setData c .unknownNonzero) hb
          rw [holl] at h2
          exact h2
        simp only [oslOne]
        rw [holl]
        split_ifs <;> simp [noAdd0, noAdd0One, noAdd0_snoc, hels2]
      | ifNonZero c els =>
        have hn : 1 ≤ m := le_trans (AST.size_pos _) hsz
        have hsz2 : els.size ≤ m - 1 := by
          have := els_size_lt_ifNonZero c els
          omega
        have hb : noAdd0 els = true := by simpa [noAdd0One] using ha
        rcases hk : st.getData c with _ | _ | v
        · rcases holl : oslList els (st.setData c .unknownNonzero) with ⟨els2, r, b2⟩
          have hels2 : noAdd0 els2 = true := by
            have h2 := (ih (m - 1) (by omega)).2 els hsz2 (st.setData c .unknownNonzero) hb
            rw [holl] at h2
            exact h2
          simp only [oslOne, SimState.makeBranch]
          rw [hk]
          try simp only
          rw [holl]
          simp [noAdd0, noAdd0One, hels2]
        · rcases holl : oslList els st with ⟨els2, r, st2⟩
          have hels2 : noAdd0 els2 = true := by
            have h2 := (ih (m - 1) (by omega)).2 els hsz2 st hb
            rw [holl] at h2
            exact h2
          simp only [oslOne]
          rw [hk]
          try simp only
          rw [holl]
          simpa using hels2
        · cases v with
          | zero => simp [oslOne, hk, noAdd0]
          | succ w =>
            rcases holl : oslList els st with ⟨els2, r, st2⟩
            have hels2 : noAdd0 els2 = true := by
              have h2 := (ih (m - 1) (by omega)).2 els hsz2 st hb
              rw [holl] at h2
              exact h2
            simp only [oslOne]
            rw [hk]
            try simp only
            rw [holl]
            simpa using hels2
      | modData kind d =>
        cases kind with
        | setData a => simp [oslOne, noAdd0, noAdd0One]
        | addData a => simpa [oslOne, noAdd0, noAdd0One] using ha
      | shiftDataPtr a => simp [oslOne, noAdd0, noAdd0One]
      | combineData s t mu => simp [oslOne, noAdd0, noAdd0One]
      | readByte d => simp [oslOne, noAdd0, noAdd0One]
      | writeByte d => simp [oslOne, noAdd0, noAdd0One]
      | writeConst b => simp [oslOne, noAdd0, noAdd0One]
      | infiniteLoop => simp [oslOne, noAdd0, noAdd0One]
      | shiftLoop c s nt => simp [oslOne, noAdd0, noAdd0One]
      | assertEquals d v => simp [oslOne, noAdd0, noAdd0One]
    · intro l hsz st hl
      cases l with
      | nil => simp [oslList, noAdd0]
      | cons cmd rest =>
        have hn : 1 ≤ m := by
          have h1 := AST.size_pos cmd
          have h2 := ASTList.size_lt_cons cmd rest
          omega
        have hc : cmd.size ≤ m - 1 := by
          have := AST.size_lt_cons_head cmd rest
          simp only [ASTList.size] at hsz
          omega
        have hr : rest.size ≤ m - 1 := by
          have := AST.size_pos cmd
          simp only [ASTList.size] at hsz
          omega
        simp only [noAdd0, Bool.and_eq_true] at hl
        rcases h1 : oslOne cmd st with ⟨em, n1, st1⟩
        have hem : noAdd0 em = true := by
          have h3 := (ih (m - 1) (by omega)).1 cmd hc st hl.1
          rw [h1] at h3
          exact h3
        rcases h2 : oslList rest st1 with ⟨out, n2, st2⟩
        have hout : noAdd0 out = true := by
          have h3 := (ih (m - 1) (by omega)).2 rest hr st1 hl.2
          rw [h2] at h3
          exact h3
        simp only [oslList]
        rw [h1]
        try simp only
        rw [h2]
        simp [noAdd0_append, hem, hout]

theorem oneStepLoops_noAdd0 (cmds : ASTList) (h : noAdd0 cmds = true) :
    noAdd0 (oneStepLoops cmds).1 = true := by
  rcases h0 : oslList cmds (SimState.new (.known 0)) with ⟨out, n, st⟩
  have h2 := (osl_noAdd0 cmds.size).2 cmds le_rfl (SimState.new (.known 0)) h
  rw [h0] at h2
  simp only [oneStepLoops]
  rw [h0]
  exact h2

/-- C6 (amended): the reorder (`sort_commands`), const-loop-removal
(`const_loop_remove`) and one-step-loop (`one_step_loops`) passes preserve
the absence of `Mod(Add(0), _)` nodes: if the input IR contains no such node
recursively, neither does each of their outputs. (The collapse and
simulation passes do not have this property; see the counterexample.) -/
theorem sort_clr_osl_preserve_noAdd0 (cmds out : ASTList) (n : Nat)
    (h : noAdd0 cmds = true) :
    noAdd0 (sortCommands cmds).1 = true ∧
    (constLoopRemove cmds = some (out, n) → noAdd0 out = true) ∧
    noAdd0 (oneStepLoops cmds).1 = true :=
  ⟨sortCommands_noAdd0 cmds h,
   fun hc => constLoopRemove_noAdd0 cmds out n h hc,
   oneStepLoops_noAdd0 cmds h⟩

theorem sort_clr_osl_preserve_noAdd0_witness :
    noAdd0 (.cons (.loop 0 (.cons (.modData (.addData 255) 0) .nil) false) .nil) = true ∧
    (noAdd0 (sortCommands
        (.cons (.loop 0 (.cons (.modData (.addData 255) 0) .nil) false) .nil)).1 = true ∧
      (constLoopRemove (.cons (.loop 0 (.cons (.modData (.addData 255) 0) .nil) false) .nil) =
          some (.cons (.modData (.setData 0) 0) .nil, 1) →
        noAdd0 (ASTList.cons (.modData (.setData 0) 0) .nil) = true) ∧
      noAdd0 (oneStepLoops
        (.cons (.loop 0 (.cons (.modData (.addData 255) 0) .nil) false) .nil)).1 = true) :=
  ⟨by decide,
   sort_clr_osl_preserve_noAdd0
     (.cons (.loop 0 (.cons (.modData (.addData 255) 0) .nil) false) .nil)
     (.cons (.modData (.setData 0) 0) .nil) 1 (by decide)⟩

end Bf